import Mathlib

/-!
# Verification of the `lazy` deferred-computation library

This file gives a shallow embedding of the two lazy-cell facades of the
repository and proves/refutes the frozen claims about them.

* `LazyFP` embeds `src/Lazy.ts`: a cell is an object with up to three
  symbol-keyed fields (`Suspension`, `Value`, `Exception`); `force` checks
  the fields by *key presence* (`in`), stores a caught exception raw, and
  removes the suspension with `delete`.
* `LazyOOP` embeds the first class of `src/LazyOOP.ts`: the same three
  fields, but every predicate additionally requires the field value to be
  `!== undefined`, and a caught exception is normalized with `errorFrom`
  (wrap a non-`Error` value into a fresh `Error` carrying `String(e)`).

JavaScript values relevant to the claims are modelled by `JS`; `Error`
objects carry an allocation identifier so that object identity of stored
and re-raised errors is expressible.  Cells live in a `Heap` (a list of
cells plus a fresh-id counter); a stored computation is either an opaque
user thunk (`Comp.base`, an event list plus an outcome) or the thunk
`() => f(force(x))` created by `map`/`mapVal` (`Comp.mapComp`).  `force`
is a fuel-indexed interpreter returning the updated heap, an optional
outcome (`none` = fuel exhausted, which only happens on the re-entrant
self-forcing the specification leaves unspecified) and a trace of
observable events.
-/

/-- The class of a modelled JavaScript `Error` object: an ordinary `Error`
(as produced by `errorFrom`) or the dedicated `Lazy.Undefined` class. -/
inductive ErrClass where
  | plain
  | lazyUndefined
deriving DecidableEq, Repr

/-- Modelled JavaScript values.  `error` carries an allocation identifier so
that reference identity of error objects can be stated. -/
inductive JS where
  | undef
  | boolV (b : Bool)
  | num (n : Int)
  | str (s : String)
  | error (id : Nat) (cls : ErrClass) (msg : String)
deriving DecidableEq, Repr

/-- `e instanceof Error` for modelled values. -/
def JS.isError : JS → Bool
  | .error _ _ _ => true
  | _ => false

def strUndefined : String := "undefined"
def strTrue : String := "true"
def strFalse : String := "false"
def strErrorName : String := "Error"
def strUndefName : String := "Lazy.Undefined"
def strColon : String := ": "

/-- `String(v)` for modelled values, as used by `errorFrom`. -/
def JS.toStr : JS → String
  | .undef => strUndefined
  | .boolV true => strTrue
  | .boolV false => strFalse
  | .num n => toString n
  | .str s => s
  | .error _ .plain m => strErrorName ++ strColon ++ m
  | .error _ .lazyUndefined m => strUndefName ++ strColon ++ m

/-- A user mapping function `f : T → U`: applied to a value it produces a
list of observable side effects (numbered events) and either a normal
result or a raised value. -/
def Fn : Type := JS → List Nat × Except JS JS

/-- A stored zero-argument computation: either an opaque user thunk with its
observable events and outcome, or the thunk `() => f(force(x))` built by
`map`/`mapVal` over the cell with index `src`. -/
inductive Comp where
  | base (evs : List Nat) (out : Except JS JS)
  | mapComp (src : Nat) (f : Fn)

/-- One lazy cell: the three optional symbol-keyed fields of the source.
`none` models an absent (or, for the OOP facade, `undefined`) field. -/
structure Cell where
  susp : Option Comp
  val : Option JS
  exc : Option JS

def Cell.empty : Cell := ⟨none, none, none⟩

/-- The store of cells: cells are addressed by their index; `next` is the
allocator for fresh `Error` identities. -/
structure Heap where
  cells : List Cell
  next : Nat

def Heap.empty : Heap := ⟨[], 0⟩

def Heap.get (h : Heap) (i : Nat) : Cell := h.cells.getD i Cell.empty

def Heap.set (h : Heap) (i : Nat) (c : Cell) : Heap :=
  { h with cells := h.cells.set i c }

/-- Allocate a new cell at the end of the heap, returning its index. -/
def Heap.push (h : Heap) (c : Cell) : Heap × Nat :=
  ({ h with cells := h.cells ++ [c] }, h.cells.length)

/-- Observable events: `ran i` = the stored suspension of cell `i` was
invoked; `fapp` = a user mapping function was applied; `user n` = a side
effect of a user thunk or mapping function. -/
inductive Ev where
  | ran (i : Nat)
  | fapp
  | user (n : Nat)
deriving DecidableEq, Repr

/-- The message of the dedicated `Lazy.Undefined` error. -/
def undefMsg : String := "expected computation, but got a value"

/-- `new Lazy.Undefined("expected computation, but got a value")`:
allocates a fresh error object of the dedicated class. -/
def allocUndef (h : Heap) : JS × Heap :=
  (JS.error h.next ErrClass.lazyUndefined undefMsg, { h with next := h.next + 1 })

/-- The result of forcing: updated heap, optional outcome (`none` = fuel
exhausted) and the trace of observable events. -/
abbrev FRes : Type := Heap × Option (Except JS JS) × List Ev

namespace LazyFP

/-- `Lazy(sus)` of `src/Lazy.ts`: a fresh cell holding only the suspension. -/
def mk (h : Heap) (c : Comp) : Heap × Nat :=
  h.push ⟨some c, none, none⟩

/-- `Lazy.is_val` of `src/Lazy.ts`: `Value in x` — key presence only. -/
def is_val (h : Heap) (i : Nat) : Bool :=
  (h.get i).val.isSome

/-- `Lazy.from_val` of `src/Lazy.ts`: `{ [Value]: v }`. -/
def from_val (h : Heap) (v : JS) : Heap × Nat :=
  h.push ⟨none, some v, none⟩

/-- The tail of the suspension branch of `Lazy.force`:
`a[Value] = result` / `a[Exception] = e` (stored *raw*, no normalization),
then `delete a[Suspension]`, then `if (Exception in a) throw a[Exception];
return a[Value]`.  The cell is re-read from the heap produced by running
the suspension, modelling the in-place mutation of the live object. -/
def finish (h1 : Heap) (i : Nat) (out : Except JS JS) (tr : List Ev) : FRes :=
  let c2 : Cell :=
    match out with
    | .ok v => { h1.get i with val := some v, susp := none }
    | .error e => { h1.get i with exc := some e, susp := none }
  let h2 := h1.set i c2
  match c2.exc with
  | some e => (h2, some (.error e), tr)
  | none => (h2, some (.ok (c2.val.getD JS.undef)), tr)

/-- `Lazy.force` of `src/Lazy.ts`, with fuel for the (unspecified)
re-entrant case.  Branches in source order: `is_val` (key presence),
`Exception in x`, `Suspension in a` (running the suspension; a `mapComp`
suspension is `() => f(force(x))`, so it first forces `src` and then
applies `f`), otherwise the corrupted-state branch allocating a fresh
`Lazy.Undefined` error. -/
def force : Nat → Heap → Nat → FRes
  | 0, h, _ => (h, none, [])
  | fuel + 1, h, i =>
    match (h.get i).val with
    | some v => (h, some (.ok v), [])
    | none =>
      match (h.get i).exc with
      | some e => (h, some (.error e), [])
      | none =>
        match (h.get i).susp with
        | some (.base evs out) => finish h i out (Ev.ran i :: evs.map Ev.user)
        | some (.mapComp src f) =>
          match force fuel h src with
          | (h1, none, tr) => (h1, none, Ev.ran i :: tr)
          | (h1, some (.error e), tr) => finish h1 i (.error e) (Ev.ran i :: tr)
          | (h1, some (.ok v), tr) =>
            finish h1 i (f v).2 (Ev.ran i :: (tr ++ Ev.fapp :: ((f v).1.map Ev.user)))
        | none =>
          let (e, h1) := allocUndef h
          (h1.set i { h.get i with exc := some e }, some (.error e), [])

/-- `Lazy.map` of `src/Lazy.ts`: `Lazy(() => f(force(x)))`. -/
def map (f : Fn) (h : Heap) (x : Nat) : Heap × Nat :=
  mk h (.mapComp x f)

/-- `Lazy.map_val` of `src/Lazy.ts`: eager `from_val (f x[Value])` when
`is_val x`, otherwise the same thunk as `map`.  The middle component is
`.ok` of the new cell index, or `.error e` when the eager application
raises (in which case no cell is constructed and the heap is returned
unchanged). -/
def map_val (f : Fn) (h : Heap) (x : Nat) : Heap × Except JS Nat × List Ev :=
  match (h.get x).val with
  | some v =>
    match f v with
    | (evs, .ok w) =>
      let p := from_val h w
      (p.1, .ok p.2, Ev.fapp :: evs.map Ev.user)
    | (evs, .error e) => (h, .error e, Ev.fapp :: evs.map Ev.user)
  | none =>
    let p := mk h (.mapComp x f)
    (p.1, .ok p.2, [])

end LazyFP

namespace LazyOOP

/-- The `!== undefined` test applied by every predicate of the OOP class:
a field holding `undefined` counts as absent. -/
def defined? : Option JS → Option JS
  | some .undef => none
  | some v => some v
  | none => none

/-- `new Lazy(f)` / `Lazy.from(f)` of `src/LazyOOP.ts`. -/
def mk (h : Heap) (c : Comp) : Heap × Nat :=
  h.push ⟨some c, none, none⟩

/-- `Lazy.prototype.isVal`: `Val in this && this[Val] !== undefined`. -/
def isVal (h : Heap) (i : Nat) : Bool :=
  (defined? (h.get i).val).isSome

/-- `Lazy.fromVal` of `src/LazyOOP.ts`: constructs with a dummy suspension,
then sets `Val = v`, `Suspension = undefined`, `Exception = undefined` —
net result a cell holding only the value. -/
def fromVal (h : Heap) (v : JS) : Heap × Nat :=
  h.push ⟨none, some v, none⟩

/-- `errorFrom` of `src/LazyOOP.ts`: `e instanceof Error ? e : new
Error(String(e))`; wrapping allocates a fresh plain `Error` preserving the
string representation. -/
def errorFrom (h : Heap) (e : JS) : JS × Heap :=
  if e.isError then (e, h)
  else (JS.error h.next ErrClass.plain e.toStr, { h with next := h.next + 1 })

/-- The tail of the suspension branch of `Lazy.prototype.force`:
`x[Val] = result` / `x[Exception] = errorFrom(e)` (normalized!), then
`x[Suspension] = undefined`, then `if (x.isException()) throw
x[Exception]; return x[Val]`. -/
def finish (h1 : Heap) (i : Nat) (out : Except JS JS) (tr : List Ev) : FRes :=
  let p : Heap × Cell :=
    match out with
    | .ok v => (h1, { h1.get i with val := some v, susp := none })
    | .error e0 =>
      let q := errorFrom h1 e0
      (q.2, { h1.get i with exc := some q.1, susp := none })
  let h2 := p.1.set i p.2
  match defined? p.2.exc with
  | some e => (h2, some (.error e), tr)
  | none => (h2, some (.ok (p.2.val.getD JS.undef)), tr)

/-- `Lazy.prototype.force` of `src/LazyOOP.ts` (first class).  Branches in
source order: `isVal` (value present and `!== undefined`), `isException`,
`isSuspension` (run the suspension, normalize a caught error with
`errorFrom`), otherwise the corrupted-state branch allocating a fresh
`Lazy.Undefined` error. -/
def force : Nat → Heap → Nat → FRes
  | 0, h, _ => (h, none, [])
  | fuel + 1, h, i =>
    match defined? (h.get i).val with
    | some v => (h, some (.ok v), [])
    | none =>
      match defined? (h.get i).exc with
      | some e => (h, some (.error e), [])
      | none =>
        match (h.get i).susp with
        | some (.base evs out) => finish h i out (Ev.ran i :: evs.map Ev.user)
        | some (.mapComp src f) =>
          match force fuel h src with
          | (h1, none, tr) => (h1, none, Ev.ran i :: tr)
          | (h1, some (.error e), tr) => finish h1 i (.error e) (Ev.ran i :: tr)
          | (h1, some (.ok v), tr) =>
            finish h1 i (f v).2 (Ev.ran i :: (tr ++ Ev.fapp :: ((f v).1.map Ev.user)))
        | none =>
          let (e, h1) := allocUndef h
          (h1.set i { h.get i with exc := some e }, some (.error e), [])

/-- `Lazy.prototype.map`: `new Lazy(() => f(this.force()))`. -/
def map (f : Fn) (h : Heap) (x : Nat) : Heap × Nat :=
  mk h (.mapComp x f)

/-- `Lazy.prototype.mapVal`: eager `Lazy.fromVal(f(this[Val]))` when
`this.isVal()`, otherwise the same thunk as `map`. -/
def mapVal (f : Fn) (h : Heap) (x : Nat) : Heap × Except JS Nat × List Ev :=
  match defined? (h.get x).val with
  | some v =>
    match f v with
    | (evs, .ok w) =>
      let p := fromVal h w
      (p.1, .ok p.2, Ev.fapp :: evs.map Ev.user)
    | (evs, .error e) => (h, .error e, Ev.fapp :: evs.map Ev.user)
  | none =>
    let p := mk h (.mapComp x f)
    (p.1, .ok p.2, [])

end LazyOOP

/-! ## Well-formedness and tameness predicates -/

/-- A heap is index-well-formed when every `mapComp` suspension refers to a
strictly smaller cell index.  Every heap built through the public API has
this shape, because `map`/`mapVal` always append a fresh cell whose thunk
captures an existing one. -/
def WF (h : Heap) : Prop :=
  ∀ i src f, (h.get i).susp = some (.mapComp src f) → src < i

/-- A computation outcome is tame when a normal result is a defined value
and a raised value is an `Error` object. -/
def TameOut : Except JS JS → Prop
  | .ok v => v ≠ JS.undef
  | .error e => e.isError = true

/-- A mapping function is tame when every outcome it produces is tame. -/
def TameFn (f : Fn) : Prop := ∀ v, TameOut (f v).2

/-- A stored computation is tame when its outcome is tame; for a
`map`/`mapVal` thunk, when the captured mapping function is tame. -/
def TameComp : Comp → Prop
  | .base _ out => TameOut out
  | .mapComp _ f => TameFn f

/-- A cell is tame when a stored value is defined, a stored exception is an
`Error` object, and a stored suspension is tame. -/
def TameCell (c : Cell) : Prop :=
  (∀ v, c.val = some v → v ≠ JS.undef) ∧
  (∀ e, c.exc = some e → e.isError = true) ∧
  (∀ k, c.susp = some k → TameComp k)

def Tame (h : Heap) : Prop := ∀ i, TameCell (h.get i)

/-- The error class of an `Error` object, `none` for non-errors. -/
def errClassOf : JS → Option ErrClass
  | .error _ c _ => some c
  | _ => none

/-- Every in-range cell is observably in exactly one variant, through the
FP facade's key-presence reading (`Pending` = suspension present, `Done` =
value present, `Failed` = exception present). -/
def ExactlyOneFP (h : Heap) : Prop :=
  ∀ i, i < h.cells.length →
    ((h.get i).susp.isSome ∧ (h.get i).val = none ∧ (h.get i).exc = none) ∨
    ((h.get i).susp = none ∧ (h.get i).val.isSome ∧ (h.get i).exc = none) ∨
    ((h.get i).susp = none ∧ (h.get i).val = none ∧ (h.get i).exc.isSome)

/-- Every in-range cell is observably in exactly one variant, through the
OOP facade's `!== undefined` reading of the fields. -/
def ExactlyOneOOP (h : Heap) : Prop :=
  ∀ i, i < h.cells.length →
    ((h.get i).susp.isSome ∧ LazyOOP.defined? (h.get i).val = none ∧
      LazyOOP.defined? (h.get i).exc = none) ∨
    ((h.get i).susp = none ∧ (LazyOOP.defined? (h.get i).val).isSome ∧
      LazyOOP.defined? (h.get i).exc = none) ∨
    ((h.get i).susp = none ∧ LazyOOP.defined? (h.get i).val = none ∧
      (LazyOOP.defined? (h.get i).exc).isSome)

/-- An outcome that never produces the value `undefined`. -/
def NoUndefOut : Except JS JS → Prop
  | .ok v => v ≠ JS.undef
  | .error _ => True

/-- A computation that never produces the value `undefined`. -/
def NoUndefComp : Comp → Prop
  | .base _ out => NoUndefOut out
  | .mapComp _ f => ∀ v, NoUndefOut (f v).2

/-- Every stored suspension of the heap never produces `undefined`. -/
def NoUndefSusp (h : Heap) : Prop :=
  ∀ i c, (h.get i).susp = some c → NoUndefComp c

/-- One operation of the public API, used to compare the two facades on
arbitrary operation sequences. -/
inductive Op where
  | newComp (c : Comp)
  | newVal (v : JS)
  | doForce (fuel : Nat) (i : Nat)
  | askIsVal (i : Nat)
  | doMap (f : Fn) (i : Nat)
  | doMapVal (f : Fn) (i : Nat)

/-- The observable outcome of one operation: the index of a fresh cell, a
forced value or a raised error together with the trace of events, the
answer of `isVal`, or the result of `mapVal` (a fresh cell or a
synchronous raise). -/
inductive Obs where
  | newCell (i : Nat)
  | forcedOk (v : JS) (tr : List Ev)
  | forcedErr (e : JS) (tr : List Ev)
  | forcedSpin (tr : List Ev)
  | answer (b : Bool)
  | mapCell (i : Nat)
  | mapValCell (i : Nat) (tr : List Ev)
  | mapValRaise (e : JS) (tr : List Ev)
deriving DecidableEq, Repr

/-- Run one operation through the FP facade. -/
def stepFP (h : Heap) : Op → Heap × Obs
  | .newComp c => ((LazyFP.mk h c).1, .newCell (LazyFP.mk h c).2)
  | .newVal v => ((LazyFP.from_val h v).1, .newCell (LazyFP.from_val h v).2)
  | .doForce fuel i =>
    match LazyFP.force fuel h i with
    | (h', some (.ok v), tr) => (h', .forcedOk v tr)
    | (h', some (.error e), tr) => (h', .forcedErr e tr)
    | (h', none, tr) => (h', .forcedSpin tr)
  | .askIsVal i => (h, .answer (LazyFP.is_val h i))
  | .doMap f i => ((LazyFP.map f h i).1, .mapCell (LazyFP.map f h i).2)
  | .doMapVal f i =>
    match LazyFP.map_val f h i with
    | (h', .ok y, tr) => (h', .mapValCell y tr)
    | (h', .error e, tr) => (h', .mapValRaise e tr)

/-- Run one operation through the OOP facade. -/
def stepOOP (h : Heap) : Op → Heap × Obs
  | .newComp c => ((LazyOOP.mk h c).1, .newCell (LazyOOP.mk h c).2)
  | .newVal v => ((LazyOOP.fromVal h v).1, .newCell (LazyOOP.fromVal h v).2)
  | .doForce fuel i =>
    match LazyOOP.force fuel h i with
    | (h', some (.ok v), tr) => (h', .forcedOk v tr)
    | (h', some (.error e), tr) => (h', .forcedErr e tr)
    | (h', none, tr) => (h', .forcedSpin tr)
  | .askIsVal i => (h, .answer (LazyOOP.isVal h i))
  | .doMap f i => ((LazyOOP.map f h i).1, .mapCell (LazyOOP.map f h i).2)
  | .doMapVal f i =>
    match LazyOOP.mapVal f h i with
    | (h', .ok y, tr) => (h', .mapValCell y tr)
    | (h', .error e, tr) => (h', .mapValRaise e tr)

/-- Run a sequence of operations through the FP facade, collecting the
observations. -/
def runSeqFP : Heap → List Op → Heap × List Obs
  | h, [] => (h, [])
  | h, op :: rest =>
    ((runSeqFP (stepFP h op).1 rest).1,
      (stepFP h op).2 :: (runSeqFP (stepFP h op).1 rest).2)

/-- Run a sequence of operations through the OOP facade, collecting the
observations. -/
def runSeqOOP : Heap → List Op → Heap × List Obs
  | h, [] => (h, [])
  | h, op :: rest =>
    ((runSeqOOP (stepOOP h op).1 rest).1,
      (stepOOP h op).2 :: (runSeqOOP (stepOOP h op).1 rest).2)

/-- Tameness of one operation: wrapped computations and mapping functions
only raise `Error` objects and only produce defined values, and `fromVal`
is applied to a defined value. -/
def TameOp : Op → Prop
  | .newComp c => TameComp c
  | .newVal v => v ≠ JS.undef
  | .doForce _ _ => True
  | .askIsVal _ => True
  | .doMap f _ => TameFn f
  | .doMapVal f _ => TameFn f

/-- The heap after `map f x` (identical for both facades): the original
cells plus one fresh pending cell holding the thunk `() => f(force(x))`. -/
def mapCellHeap (h : Heap) (x : Nat) (f : Fn) : Heap :=
  (h.push ⟨some (Comp.mapComp x f), none, none⟩).1

/-! ## Concrete cells and heaps used by witnesses and counterexamples -/

/-- A user computation with one observable event, returning `69`. -/
def cellComp : Comp := Comp.base [5] (Except.ok (JS.num 69))

def hPendFP : Heap := (LazyFP.mk Heap.empty cellComp).1

def hPendOOP : Heap := (LazyOOP.mk Heap.empty cellComp).1

def hDoneFP : Heap := Heap.set hPendFP 0 ⟨none, some (JS.num 69), none⟩

def hDoneOOP : Heap := Heap.set hPendOOP 0 ⟨none, some (JS.num 69), none⟩

/-- A user computation returning the value `undefined`. -/
def undefComp : Comp := Comp.base [] (Except.ok JS.undef)

def hUndefOOP : Heap := (LazyOOP.mk Heap.empty undefComp).1

def hUndef1 : Heap := (LazyOOP.force 2 hUndefOOP 0).1

def hUndef2 : Heap := (LazyOOP.force 2 hUndef1 0).1

def strBoom : String := "boom"

/-- A user computation that raises the *string* `"boom"` — not an `Error`
object. -/
def boomComp : Comp := Comp.base [] (Except.error (JS.str strBoom))

def hBoomFP : Heap := (LazyFP.mk Heap.empty boomComp).1

def hBoomOOP : Heap := (LazyOOP.mk Heap.empty boomComp).1

/-- A corrupted heap: one cell with no computation and no recorded
outcome. -/
def hCorrupt : Heap := ⟨[Cell.empty], 0⟩

def hOneOOP : Heap := (LazyOOP.fromVal Heap.empty (JS.num 1)).1

/-- A mapping function returning `undefined`. -/
def fUndef : Fn := fun _ => ([], Except.ok JS.undef)

/-- A mapping function returning `1`. -/
def fOne : Fn := fun _ => ([], Except.ok (JS.num 1))

/-- A mapping function with one observable event, returning its argument. -/
def fEv : Fn := fun v => ([7], Except.ok v)

/-- A concrete `Error` object raised by `fRaise`. -/
def errBoom : JS := JS.error 99 ErrClass.plain strBoom

/-- A mapping function that raises the `Error` object `errBoom`. -/
def fRaise : Fn := fun _ => ([3], Except.error errBoom)

/-- A tame operation sequence: wrap a computation, force it twice, ask
`isVal`. -/
def opsTame : List Op :=
  [Op.newComp cellComp, Op.doForce 2 0, Op.doForce 2 0, Op.askIsVal 0]

/-- An operation sequence on which the facades disagree: wrap a
computation raising the string `"boom"` and force it. -/
def opsBoom : List Op := [Op.newComp boomComp, Op.doForce 2 0]

/-! ## Basic heap lemmas -/

theorem list_set_oob {α : Type} (l : List α) (c : α) :
    ∀ i, l.length ≤ i → l.set i c = l := by
  induction l with
  | nil => intro i _; rfl
  | cons a t ih =>
    intro i hi
    cases i with
    | zero => exact absurd hi (by simp)
    | succ j => simpa using ih j (by simpa using hi)

theorem list_getD_set_self {α : Type} (l : List α) (c d : α) :
    ∀ i, i < l.length → (l.set i c).getD i d = c := by
  induction l with
  | nil => intro i hi; simp at hi
  | cons a t ih =>
    intro i hi
    cases i with
    | zero => rfl
    | succ j => simpa using ih j (by simpa using hi)

theorem list_getD_set_ne {α : Type} (l : List α) (c d : α) :
    ∀ i j, j ≠ i → (l.set i c).getD j d = l.getD j d := by
  induction l with
  | nil => intro i j _; rfl
  | cons a t ih =>
    intro i j hne
    cases i with
    | zero =>
      cases j with
      | zero => exact absurd rfl hne
      | succ k => rfl
    | succ i' =>
      cases j with
      | zero => rfl
      | succ k => simpa using ih i' k (by simpa using hne)

theorem list_getD_oob {α : Type} (l : List α) (d : α) :
    ∀ i, l.length ≤ i → l.getD i d = d := by
  induction l with
  | nil => intro i _; rfl
  | cons a t ih =>
    intro i hi
    cases i with
    | zero => exact absurd hi (by simp)
    | succ j => simpa using ih j (by simpa using hi)

theorem list_getD_append_lt {α : Type} (l m : List α) (d : α) :
    ∀ i, i < l.length → (l ++ m).getD i d = l.getD i d := by
  induction l with
  | nil => intro i hi; simp at hi
  | cons a t ih =>
    intro i hi
    cases i with
    | zero => rfl
    | succ j => simpa using ih j (by simpa using hi)

theorem list_getD_append_self {α : Type} (l : List α) (c d : α) :
    (l ++ [c]).getD l.length d = c := by
  induction l with
  | nil => rfl
  | cons a t ih =>
    simp only [List.cons_append, List.length_cons, List.getD_cons_succ]
    exact ih

theorem heap_len_set (h : Heap) (i : Nat) (c : Cell) :
    (h.set i c).cells.length = h.cells.length := by
  simp [Heap.set]

theorem heap_get_set_self (h : Heap) (i : Nat) (c : Cell)
    (hi : i < h.cells.length) : (h.set i c).get i = c :=
  list_getD_set_self _ _ _ _ hi

theorem heap_get_set_ne (h : Heap) (i j : Nat) (c : Cell)
    (hne : j ≠ i) : (h.set i c).get j = h.get j :=
  list_getD_set_ne _ _ _ _ _ hne

theorem heap_set_oob {h : Heap} {i : Nat} (c : Cell)
    (hi : h.cells.length ≤ i) : (h.set i c).cells = h.cells := by
  simp [Heap.set, list_set_oob _ _ _ hi]

theorem heap_get_oob {h : Heap} {i : Nat}
    (hi : h.cells.length ≤ i) : h.get i = Cell.empty :=
  list_getD_oob _ _ _ hi

theorem heap_get_push_lt {h : Heap} {j : Nat} (c : Cell)
    (hj : j < h.cells.length) : (h.push c).1.get j = h.get j :=
  list_getD_append_lt _ _ _ _ hj

theorem heap_get_push_self (h : Heap) (c : Cell) :
    (h.push c).1.get h.cells.length = c :=
  list_getD_append_self _ _ _

theorem heap_len_push (h : Heap) (c : Cell) :
    (h.push c).1.cells.length = h.cells.length + 1 := by
  simp [Heap.push]

/-! ## `defined?` helpers -/

theorem defined_none : LazyOOP.defined? none = none := rfl

theorem defined_some_ne {v : JS} (hv : v ≠ JS.undef) :
    LazyOOP.defined? (some v) = some v := by
  cases v with
  | undef => exact absurd rfl hv
  | boolV b => rfl
  | num n => rfl
  | str s => rfl
  | error i c m => rfl

theorem defined_undef : LazyOOP.defined? (some JS.undef) = none := rfl

theorem defined_eq_some {o : Option JS} {v : JS}
    (h : LazyOOP.defined? o = some v) : o = some v ∧ v ≠ JS.undef := by
  cases o with
  | none => simp [LazyOOP.defined?] at h
  | some w =>
    cases w with
    | undef => simp [LazyOOP.defined?] at h
    | boolV b => cases h; exact ⟨rfl, by intro hc; cases hc⟩
    | num n => cases h; exact ⟨rfl, by intro hc; cases hc⟩
    | str s => cases h; exact ⟨rfl, by intro hc; cases hc⟩
    | error i c m => cases h; exact ⟨rfl, by intro hc; cases hc⟩

theorem defined_eq_none {o : Option JS}
    (h : LazyOOP.defined? o = none) : o = none ∨ o = some JS.undef := by
  cases o with
  | none => exact Or.inl rfl
  | some w =>
    cases w with
    | undef => exact Or.inr rfl
    | boolV b => simp [LazyOOP.defined?] at h
    | num n => simp [LazyOOP.defined?] at h
    | str s => simp [LazyOOP.defined?] at h
    | error i c m => simp [LazyOOP.defined?] at h

theorem isError_ne_undef {e : JS} (he : e.isError = true) : e ≠ JS.undef := by
  intro hc; subst hc; simp [JS.isError] at he

/-! ## Branch lemmas for `LazyFP.force` -/

theorem fp_finish_ok {h1 : Heap} {i : Nat} (v : JS) (tr : List Ev)
    (he : (h1.get i).exc = none) :
    LazyFP.finish h1 i (.ok v) tr =
      (h1.set i { h1.get i with val := some v, susp := none },
        some (.ok v), tr) := by
  simp [LazyFP.finish, he]

theorem fp_finish_err {h1 : Heap} {i : Nat} (e : JS) (tr : List Ev) :
    LazyFP.finish h1 i (.error e) tr =
      (h1.set i { h1.get i with exc := some e, susp := none },
        some (.error e), tr) := by
  simp [LazyFP.finish]

theorem fp_force_val {h : Heap} {i : Nat} {v : JS} (n : Nat)
    (hv : (h.get i).val = some v) :
    LazyFP.force (n + 1) h i = (h, some (.ok v), []) := by
  simp [LazyFP.force, hv]

theorem fp_force_exc {h : Heap} {i : Nat} {e : JS} (n : Nat)
    (hv : (h.get i).val = none) (he : (h.get i).exc = some e) :
    LazyFP.force (n + 1) h i = (h, some (.error e), []) := by
  simp [LazyFP.force, hv, he]

theorem fp_force_base {h : Heap} {i : Nat} {evs : List Nat}
    {out : Except JS JS} (n : Nat)
    (hv : (h.get i).val = none) (he : (h.get i).exc = none)
    (hs : (h.get i).susp = some (.base evs out)) :
    LazyFP.force (n + 1) h i =
      LazyFP.finish h i out (Ev.ran i :: evs.map Ev.user) := by
  simp [LazyFP.force, hv, he, hs]

theorem fp_force_mapc_none {h h1 : Heap} {i src : Nat} {f : Fn} {tr : List Ev}
    (n : Nat)
    (hv : (h.get i).val = none) (he : (h.get i).exc = none)
    (hs : (h.get i).susp = some (.mapComp src f))
    (hr : LazyFP.force n h src = (h1, none, tr)) :
    LazyFP.force (n + 1) h i = (h1, none, Ev.ran i :: tr) := by
  simp [LazyFP.force, hv, he, hs, hr]

theorem fp_force_mapc_err {h h1 : Heap} {i src : Nat} {f : Fn} {e : JS}
    {tr : List Ev} (n : Nat)
    (hv : (h.get i).val = none) (he : (h.get i).exc = none)
    (hs : (h.get i).susp = some (.mapComp src f))
    (hr : LazyFP.force n h src = (h1, some (.error e), tr)) :
    LazyFP.force (n + 1) h i =
      LazyFP.finish h1 i (.error e) (Ev.ran i :: tr) := by
  simp [LazyFP.force, hv, he, hs, hr]

theorem fp_force_mapc_ok {h h1 : Heap} {i src : Nat} {f : Fn} {v : JS}
    {tr : List Ev} (n : Nat)
    (hv : (h.get i).val = none) (he : (h.get i).exc = none)
    (hs : (h.get i).susp = some (.mapComp src f))
    (hr : LazyFP.force n h src = (h1, some (.ok v), tr)) :
    LazyFP.force (n + 1) h i =
      LazyFP.finish h1 i (f v).2
        (Ev.ran i :: (tr ++ Ev.fapp :: ((f v).1.map Ev.user))) := by
  simp [LazyFP.force, hv, he, hs, hr]

theorem fp_force_invalid {h : Heap} {i : Nat} (n : Nat)
    (hv : (h.get i).val = none) (he : (h.get i).exc = none)
    (hs : (h.get i).susp = none) :
    LazyFP.force (n + 1) h i =
      (({ h with next := h.next + 1 }).set i
          { h.get i with exc := some (JS.error h.next ErrClass.lazyUndefined undefMsg) },
        some (.error (JS.error h.next ErrClass.lazyUndefined undefMsg)), []) := by
  simp [LazyFP.force, hv, he, hs, allocUndef]

/-! ## Branch lemmas for `LazyOOP.force` -/

theorem oop_finish_ok {h1 : Heap} {i : Nat} (v : JS) (tr : List Ev)
    (he : LazyOOP.defined? (h1.get i).exc = none) :
    LazyOOP.finish h1 i (.ok v) tr =
      (h1.set i { h1.get i with val := some v, susp := none },
        some (.ok v), tr) := by
  simp [LazyOOP.finish, he]

theorem oop_finish_err_isErr {h1 : Heap} {i : Nat} {e : JS} (tr : List Ev)
    (he : e.isError = true) :
    LazyOOP.finish h1 i (.error e) tr =
      (h1.set i { h1.get i with exc := some e, susp := none },
        some (.error e), tr) := by
  simp [LazyOOP.finish, LazyOOP.errorFrom, he, defined_some_ne (isError_ne_undef he)]

theorem oop_finish_err_wrap {h1 : Heap} {i : Nat} {e : JS} (tr : List Ev)
    (he : e.isError = false) :
    LazyOOP.finish h1 i (.error e) tr =
      (({ h1 with next := h1.next + 1 }).set i
          { h1.get i with
            exc := some (JS.error h1.next ErrClass.plain e.toStr)
            susp := none },
        some (.error (JS.error h1.next ErrClass.plain e.toStr)), tr) := by
  simp [LazyOOP.finish, LazyOOP.errorFrom, he, LazyOOP.defined?]

theorem oop_force_val {h : Heap} {i : Nat} {v : JS} (n : Nat)
    (hv : LazyOOP.defined? (h.get i).val = some v) :
    LazyOOP.force (n + 1) h i = (h, some (.ok v), []) := by
  simp [LazyOOP.force, hv]

theorem oop_force_exc {h : Heap} {i : Nat} {e : JS} (n : Nat)
    (hv : LazyOOP.defined? (h.get i).val = none)
    (he : LazyOOP.defined? (h.get i).exc = some e) :
    LazyOOP.force (n + 1) h i = (h, some (.error e), []) := by
  simp [LazyOOP.force, hv, he]

theorem oop_force_base {h : Heap} {i : Nat} {evs : List Nat}
    {out : Except JS JS} (n : Nat)
    (hv : LazyOOP.defined? (h.get i).val = none)
    (he : LazyOOP.defined? (h.get i).exc = none)
    (hs : (h.get i).susp = some (.base evs out)) :
    LazyOOP.force (n + 1) h i =
      LazyOOP.finish h i out (Ev.ran i :: evs.map Ev.user) := by
  simp [LazyOOP.force, hv, he, hs]

theorem oop_force_mapc_none {h h1 : Heap} {i src : Nat} {f : Fn} {tr : List Ev}
    (n : Nat)
    (hv : LazyOOP.defined? (h.get i).val = none)
    (he : LazyOOP.defined? (h.get i).exc = none)
    (hs : (h.get i).susp = some (.mapComp src f))
    (hr : LazyOOP.force n h src = (h1, none, tr)) :
    LazyOOP.force (n + 1) h i = (h1, none, Ev.ran i :: tr) := by
  simp [LazyOOP.force, hv, he, hs, hr]

theorem oop_force_mapc_err {h h1 : Heap} {i src : Nat} {f : Fn} {e : JS}
    {tr : List Ev} (n : Nat)
    (hv : LazyOOP.defined? (h.get i).val = none)
    (he : LazyOOP.defined? (h.get i).exc = none)
    (hs : (h.get i).susp = some (.mapComp src f))
    (hr : LazyOOP.force n h src = (h1, some (.error e), tr)) :
    LazyOOP.force (n + 1) h i =
      LazyOOP.finish h1 i (.error e) (Ev.ran i :: tr) := by
  simp [LazyOOP.force, hv, he, hs, hr]

theorem oop_force_mapc_ok {h h1 : Heap} {i src : Nat} {f : Fn} {v : JS}
    {tr : List Ev} (n : Nat)
    (hv : LazyOOP.defined? (h.get i).val = none)
    (he : LazyOOP.defined? (h.get i).exc = none)
    (hs : (h.get i).susp = some (.mapComp src f))
    (hr : LazyOOP.force n h src = (h1, some (.ok v), tr)) :
    LazyOOP.force (n + 1) h i =
      LazyOOP.finish h1 i (f v).2
        (Ev.ran i :: (tr ++ Ev.fapp :: ((f v).1.map Ev.user))) := by
  simp [LazyOOP.force, hv, he, hs, hr]

theorem oop_force_invalid {h : Heap} {i : Nat} (n : Nat)
    (hv : LazyOOP.defined? (h.get i).val = none)
    (he : LazyOOP.defined? (h.get i).exc = none)
    (hs : (h.get i).susp = none) :
    LazyOOP.force (n + 1) h i =
      (({ h with next := h.next + 1 }).set i
          { h.get i with exc := some (JS.error h.next ErrClass.lazyUndefined undefMsg) },
        some (.error (JS.error h.next ErrClass.lazyUndefined undefMsg)), []) := by
  simp [LazyOOP.force, hv, he, hs, allocUndef]

/-! ## Structural lemmas: length, locality, well-formedness preservation -/

theorem fp_finish_len (h1 : Heap) (i : Nat) (out : Except JS JS) (tr : List Ev) :
    (LazyFP.finish h1 i out tr).1.cells.length = h1.cells.length := by
  cases out with
  | ok v =>
    cases hexc : (h1.get i).exc with
    | none => simp [LazyFP.finish, hexc, Heap.set]
    | some e => simp [LazyFP.finish, hexc, Heap.set]
  | error e => simp [LazyFP.finish, Heap.set]

theorem oop_finish_len (h1 : Heap) (i : Nat) (out : Except JS JS) (tr : List Ev) :
    (LazyOOP.finish h1 i out tr).1.cells.length = h1.cells.length := by
  cases out with
  | ok v =>
    cases hexc : LazyOOP.defined? (h1.get i).exc with
    | none => simp [LazyOOP.finish, hexc, Heap.set]
    | some e => simp [LazyOOP.finish, hexc, Heap.set]
  | error e =>
    by_cases hie : e.isError = true
    · rw [oop_finish_err_isErr tr hie]; simp [Heap.set]
    · rw [oop_finish_err_wrap tr (by simpa using hie)]; simp [Heap.set]

theorem fp_finish_get_ne {h1 : Heap} {i j : Nat} (out : Except JS JS)
    (tr : List Ev) (hne : j ≠ i) :
    (LazyFP.finish h1 i out tr).1.get j = h1.get j := by
  cases out with
  | ok v =>
    cases hexc : (h1.get i).exc with
    | none => simp only [LazyFP.finish, hexc]; exact heap_get_set_ne _ _ _ _ hne
    | some e => simp only [LazyFP.finish, hexc]; exact heap_get_set_ne _ _ _ _ hne
  | error e => simp only [LazyFP.finish]; exact heap_get_set_ne _ _ _ _ hne

theorem oop_finish_get_ne {h1 : Heap} {i j : Nat} (out : Except JS JS)
    (tr : List Ev) (hne : j ≠ i) :
    (LazyOOP.finish h1 i out tr).1.get j = h1.get j := by
  cases out with
  | ok v =>
    cases hexc : LazyOOP.defined? (h1.get i).exc with
    | none => simp only [LazyOOP.finish, hexc]; exact heap_get_set_ne _ _ _ _ hne
    | some e => simp only [LazyOOP.finish, hexc]; exact heap_get_set_ne _ _ _ _ hne
  | error e =>
    by_cases hie : e.isError = true
    · rw [oop_finish_err_isErr tr hie]
      exact heap_get_set_ne _ _ _ _ hne
    · rw [oop_finish_err_wrap tr (by simpa using hie)]
      exact heap_get_set_ne _ _ _ _ hne

theorem fp_force_len : ∀ n h i, (LazyFP.force n h i).1.cells.length = h.cells.length := by
  intro n
  induction n with
  | zero => intro h i; rfl
  | succ m ih =>
    intro h i
    rcases hv : (h.get i).val with _ | v
    · rcases he : (h.get i).exc with _ | e
      · rcases hs : (h.get i).susp with _ | c
        · rw [fp_force_invalid m hv he hs]; simp [Heap.set]
        · cases c with
          | base evs out =>
            rw [fp_force_base m hv he hs]
            exact fp_finish_len h i out _
          | mapComp src f =>
            rcases hr : LazyFP.force m h src with ⟨h1, r, tr⟩
            have hlen1 : h1.cells.length = h.cells.length := by
              have hx := ih h src; rw [hr] at hx; exact hx
            rcases r with _ | r
            · rw [fp_force_mapc_none m hv he hs hr]; exact hlen1
            · rcases r with e | v
              · rw [fp_force_mapc_err m hv he hs hr]
                rw [fp_finish_len]; exact hlen1
              · rw [fp_force_mapc_ok m hv he hs hr]
                rw [fp_finish_len]; exact hlen1
      · rw [fp_force_exc m hv he]
    · rw [fp_force_val m hv]

theorem oop_force_len : ∀ n h i, (LazyOOP.force n h i).1.cells.length = h.cells.length := by
  intro n
  induction n with
  | zero => intro h i; rfl
  | succ m ih =>
    intro h i
    rcases hv : LazyOOP.defined? (h.get i).val with _ | v
    · rcases he : LazyOOP.defined? (h.get i).exc with _ | e
      · rcases hs : (h.get i).susp with _ | c
        · rw [oop_force_invalid m hv he hs]; simp [Heap.set]
        · cases c with
          | base evs out =>
            rw [oop_force_base m hv he hs]
            exact oop_finish_len h i out _
          | mapComp src f =>
            rcases hr : LazyOOP.force m h src with ⟨h1, r, tr⟩
            have hlen1 : h1.cells.length = h.cells.length := by
              have hx := ih h src; rw [hr] at hx; exact hx
            rcases r with _ | r
            · rw [oop_force_mapc_none m hv he hs hr]; exact hlen1
            · rcases r with e | v
              · rw [oop_force_mapc_err m hv he hs hr]
                rw [oop_finish_len]; exact hlen1
              · rw [oop_force_mapc_ok m hv he hs hr]
                rw [oop_finish_len]; exact hlen1
      · rw [oop_force_exc m hv he]
    · rw [oop_force_val m hv]

theorem fp_finish_fst_ok (h1 : Heap) (i : Nat) (v : JS) (tr : List Ev) :
    (LazyFP.finish h1 i (.ok v) tr).1 =
      h1.set i { h1.get i with val := some v, susp := none } := by
  cases hexc : (h1.get i).exc with
  | none => simp [LazyFP.finish, hexc]
  | some e => simp [LazyFP.finish, hexc]

theorem fp_finish_fst_err (h1 : Heap) (i : Nat) (e : JS) (tr : List Ev) :
    (LazyFP.finish h1 i (.error e) tr).1 =
      h1.set i { h1.get i with exc := some e, susp := none } := by
  simp [LazyFP.finish]

theorem oop_finish_fst_ok (h1 : Heap) (i : Nat) (v : JS) (tr : List Ev) :
    (LazyOOP.finish h1 i (.ok v) tr).1 =
      h1.set i { h1.get i with val := some v, susp := none } := by
  cases hexc : LazyOOP.defined? (h1.get i).exc with
  | none => simp [LazyOOP.finish, hexc]
  | some e => simp [LazyOOP.finish, hexc]

theorem fp_local {h : Heap} (hw : WF h) :
    ∀ n i k, i < k → ((LazyFP.force n h i).1).get k = h.get k := by
  intro n
  induction n with
  | zero => intro i k _; rfl
  | succ m ih =>
    intro i k hik
    have hkne : k ≠ i := Nat.ne_of_gt hik
    rcases hv : (h.get i).val with _ | v
    · rcases he : (h.get i).exc with _ | e
      · rcases hs : (h.get i).susp with _ | c
        · rw [fp_force_invalid m hv he hs]
          exact heap_get_set_ne _ _ _ _ hkne
        · cases c with
          | base evs out =>
            rw [fp_force_base m hv he hs]
            exact fp_finish_get_ne out _ hkne
          | mapComp src f =>
            have hsrc : src < i := hw i src f hs
            rcases hr : LazyFP.force m h src with ⟨h1, r, tr⟩
            have hk1 : h1.get k = h.get k := by
              have hx := ih src k (lt_trans hsrc hik)
              rw [hr] at hx; exact hx
            rcases r with _ | r
            · rw [fp_force_mapc_none m hv he hs hr]; exact hk1
            · rcases r with e | v
              · rw [fp_force_mapc_err m hv he hs hr]
                rw [fp_finish_get_ne _ _ hkne]; exact hk1
              · rw [fp_force_mapc_ok m hv he hs hr]
                rw [fp_finish_get_ne _ _ hkne]; exact hk1
      · rw [fp_force_exc m hv he]
    · rw [fp_force_val m hv]

theorem wf_set {h : Heap} {i : Nat} {c : Cell} (hw : WF h)
    (hc : ∀ src f, c.susp = some (.mapComp src f) → src < i) :
    WF (h.set i c) := by
  intro j src f hj
  by_cases hji : j = i
  · subst hji
    by_cases hlen : j < h.cells.length
    · rw [heap_get_set_self _ _ _ hlen] at hj
      exact hc _ _ hj
    · have hoob : (h.set j c).get j = h.get j := by
        unfold Heap.get
        rw [heap_set_oob _ (Nat.le_of_not_lt hlen)]
      rw [hoob] at hj
      exact hw j src f hj
  · rw [heap_get_set_ne _ _ _ _ hji] at hj
    exact hw j src f hj

theorem fp_wf_pres {h : Heap} (hw : WF h) :
    ∀ n i, WF ((LazyFP.force n h i).1) := by
  intro n
  induction n with
  | zero => intro i; exact hw
  | succ m ih =>
    intro i
    rcases hv : (h.get i).val with _ | v
    · rcases he : (h.get i).exc with _ | e
      · rcases hs : (h.get i).susp with _ | c
        · rw [fp_force_invalid m hv he hs]
          exact wf_set hw (by intro src f hx; rw [hs] at hx; cases hx)
        · cases c with
          | base evs out =>
            rw [fp_force_base m hv he hs]
            cases out with
            | ok v =>
              rw [fp_finish_fst_ok]
              exact wf_set hw (by intro src f hx; cases hx)
            | error e =>
              rw [fp_finish_fst_err]
              exact wf_set hw (by intro src f hx; cases hx)
          | mapComp src f =>
            rcases hr : LazyFP.force m h src with ⟨h1, r, tr⟩
            have hw1 : WF h1 := by
              have hx := ih src; rw [hr] at hx; exact hx
            rcases r with _ | r
            · rw [fp_force_mapc_none m hv he hs hr]; exact hw1
            · rcases r with e | v
              · rw [fp_force_mapc_err m hv he hs hr, fp_finish_fst_err]
                exact wf_set hw1 (by intro src' f' hx; cases hx)
              · rw [fp_force_mapc_ok m hv he hs hr]
                cases hfo : (f v).2 with
                | ok w =>
                  rw [fp_finish_fst_ok]
                  exact wf_set hw1 (by intro src' f' hx; cases hx)
                | error e =>
                  rw [fp_finish_fst_err]
                  exact wf_set hw1 (by intro src' f' hx; cases hx)
      · rw [fp_force_exc m hv he]; exact hw
    · rw [fp_force_val m hv]; exact hw

theorem fp_poststate {h : Heap} (hw : WF h) :
    ∀ n i h' r tr, i < h.cells.length →
    (h.get i).val = none → (h.get i).exc = none →
    LazyFP.force n h i = (h', some r, tr) →
    (∀ v, r = .ok v → h'.get i = { h.get i with val := some v, susp := none }) ∧
    (∀ e, r = .error e → h'.get i = { h.get i with exc := some e, susp := none }) := by
  intro n i h' r tr hlen hv he hforce
  cases n with
  | zero =>
    rw [show LazyFP.force 0 h i = (h, none, []) from rfl] at hforce
    simp only [Prod.mk.injEq] at hforce
    exact absurd hforce.2.1 (by simp)
  | succ m =>
    rcases hs : (h.get i).susp with _ | c
    · rw [fp_force_invalid m hv he hs] at hforce
      simp only [Prod.mk.injEq, Option.some.injEq] at hforce
      obtain ⟨hh, hrr, htr⟩ := hforce
      subst hh; subst hrr
      refine ⟨?_, ?_⟩
      · intro v hv'; cases hv'
      · intro e he'
        cases he'
        rw [heap_get_set_self ({ h with next := h.next + 1 }) i _ hlen, hs]
    · cases c with
      | base evs out =>
        rw [fp_force_base m hv he hs] at hforce
        cases out with
        | ok w =>
          rw [fp_finish_ok w _ he] at hforce
          simp only [Prod.mk.injEq, Option.some.injEq] at hforce
          obtain ⟨hh, hrr, htr⟩ := hforce
          subst hh; subst hrr
          refine ⟨?_, ?_⟩
          · intro v hv'
            cases hv'
            rw [heap_get_set_self _ _ _ hlen]
          · intro e he'; cases he'
        | error e0 =>
          rw [fp_finish_err e0 _] at hforce
          simp only [Prod.mk.injEq, Option.some.injEq] at hforce
          obtain ⟨hh, hrr, htr⟩ := hforce
          subst hh; subst hrr
          refine ⟨?_, ?_⟩
          · intro v hv'; cases hv'
          · intro e he'
            cases he'
            rw [heap_get_set_self _ _ _ hlen]
      | mapComp src f =>
        have hsrc : src < i := hw i src f hs
        rcases hr : LazyFP.force m h src with ⟨h1, r1, tr1⟩
        have hgi : h1.get i = h.get i := by
          have hx := fp_local hw m src i hsrc; rw [hr] at hx; exact hx
        have hlen1 : i < h1.cells.length := by
          have hx := fp_force_len m h src; rw [hr] at hx
          rw [hx]; exact hlen
        rcases r1 with _ | r1
        · rw [fp_force_mapc_none m hv he hs hr] at hforce
          simp only [Prod.mk.injEq] at hforce
          exact absurd hforce.2.1 (by simp)
        · rcases r1 with e1 | v1
          · rw [fp_force_mapc_err m hv he hs hr, fp_finish_err] at hforce
            simp only [Prod.mk.injEq, Option.some.injEq] at hforce
            obtain ⟨hh, hrr, htr⟩ := hforce
            subst hh; subst hrr
            refine ⟨?_, ?_⟩
            · intro v hv'; cases hv'
            · intro e he'
              cases he'
              rw [heap_get_set_self _ _ _ hlen1, hgi]
          · rw [fp_force_mapc_ok m hv he hs hr] at hforce
            cases hfo : (f v1).2 with
            | ok w =>
              rw [hfo, fp_finish_ok w _ (by rw [hgi]; exact he)] at hforce
              simp only [Prod.mk.injEq, Option.some.injEq] at hforce
              obtain ⟨hh, hrr, htr⟩ := hforce
              subst hh; subst hrr
              refine ⟨?_, ?_⟩
              · intro v hv'
                cases hv'
                rw [heap_get_set_self _ _ _ hlen1, hgi]
              · intro e he'; cases he'
            | error e1 =>
              rw [hfo, fp_finish_err] at hforce
              simp only [Prod.mk.injEq, Option.some.injEq] at hforce
              obtain ⟨hh, hrr, htr⟩ := hforce
              subst hh; subst hrr
              refine ⟨?_, ?_⟩
              · intro v hv'; cases hv'
              · intro e he'
                cases he'
                rw [heap_get_set_self _ _ _ hlen1, hgi]

theorem fp_memo {h : Heap} :
    ∀ n j k, ((h.get k).val.isSome ∨ (h.get k).exc.isSome) →
    ((LazyFP.force n h j).1).get k = h.get k := by
  intro n
  induction n with
  | zero => intro j k _; rfl
  | succ m ih =>
    intro j k hk
    rcases hv : (h.get j).val with _ | v
    · rcases he : (h.get j).exc with _ | e
      · have hkj : k ≠ j := by
          intro hkj; subst hkj
          rcases hk with hk | hk
          · rw [hv] at hk; simp at hk
          · rw [he] at hk; simp at hk
        rcases hs : (h.get j).susp with _ | c
        · rw [fp_force_invalid m hv he hs]
          exact heap_get_set_ne _ _ _ _ hkj
        · cases c with
          | base evs out =>
            rw [fp_force_base m hv he hs]
            exact fp_finish_get_ne out _ hkj
          | mapComp src f =>
            rcases hr : LazyFP.force m h src with ⟨h1, r, tr⟩
            have hk1 : h1.get k = h.get k := by
              have hx := ih src k hk; rw [hr] at hx; exact hx
            rcases r with _ | r
            · rw [fp_force_mapc_none m hv he hs hr]; exact hk1
            · rcases r with e | v
              · rw [fp_force_mapc_err m hv he hs hr, fp_finish_get_ne _ _ hkj]
                exact hk1
              · rw [fp_force_mapc_ok m hv he hs hr, fp_finish_get_ne _ _ hkj]
                exact hk1
      · rw [fp_force_exc m hv he]
    · rw [fp_force_val m hv]

theorem fp_force_again {h : Heap} (hw : WF h) :
    ∀ n i h' r tr, i < h.cells.length →
    LazyFP.force n h i = (h', some r, tr) →
    ∀ m, LazyFP.force (m + 1) h' i = (h', some r, []) := by
  intro n i h' r tr hlen hforce m
  rcases hv : (h.get i).val with _ | v
  · rcases he : (h.get i).exc with _ | e
    · have hps := fp_poststate hw n i h' r tr hlen hv he hforce
      rcases r with e | v
      · have hcell := hps.2 e rfl
        refine fp_force_exc m ?_ ?_
        · rw [hcell]; exact hv
        · rw [hcell]
      · have hcell := hps.1 v rfl
        refine fp_force_val m ?_
        rw [hcell]
    · cases n with
      | zero =>
        rw [show LazyFP.force 0 h i = (h, none, []) from rfl] at hforce
        simp only [Prod.mk.injEq] at hforce
        exact absurd hforce.2.1 (by simp)
      | succ n' =>
        rw [fp_force_exc n' hv he] at hforce
        simp only [Prod.mk.injEq, Option.some.injEq] at hforce
        obtain ⟨hh, hrr, htr⟩ := hforce
        subst hh; subst hrr
        exact fp_force_exc m hv he
  · cases n with
    | zero =>
      rw [show LazyFP.force 0 h i = (h, none, []) from rfl] at hforce
      simp only [Prod.mk.injEq] at hforce
      exact absurd hforce.2.1 (by simp)
    | succ n' =>
      rw [fp_force_val n' hv] at hforce
      simp only [Prod.mk.injEq, Option.some.injEq] at hforce
      obtain ⟨hh, hrr, htr⟩ := hforce
      subst hh; subst hrr
      exact fp_force_val m hv

theorem oop_local {h : Heap} (hw : WF h) :
    ∀ n i k, i < k → ((LazyOOP.force n h i).1).get k = h.get k := by
  intro n
  induction n with
  | zero => intro i k _; rfl
  | succ m ih =>
    intro i k hik
    have hkne : k ≠ i := Nat.ne_of_gt hik
    rcases hv : LazyOOP.defined? (h.get i).val with _ | v
    · rcases he : LazyOOP.defined? (h.get i).exc with _ | e
      · rcases hs : (h.get i).susp with _ | c
        · rw [oop_force_invalid m hv he hs]
          exact heap_get_set_ne _ _ _ _ hkne
        · cases c with
          | base evs out =>
            rw [oop_force_base m hv he hs]
            exact oop_finish_get_ne out _ hkne
          | mapComp src f =>
            have hsrc : src < i := hw i src f hs
            rcases hr : LazyOOP.force m h src with ⟨h1, r, tr⟩
            have hk1 : h1.get k = h.get k := by
              have hx := ih src k (lt_trans hsrc hik)
              rw [hr] at hx; exact hx
            rcases r with _ | r
            · rw [oop_force_mapc_none m hv he hs hr]; exact hk1
            · rcases r with e | v
              · rw [oop_force_mapc_err m hv he hs hr]
                rw [oop_finish_get_ne _ _ hkne]; exact hk1
              · rw [oop_force_mapc_ok m hv he hs hr]
                rw [oop_finish_get_ne _ _ hkne]; exact hk1
      · rw [oop_force_exc m hv he]
    · rw [oop_force_val m hv]

theorem oop_wf_pres {h : Heap} (hw : WF h) :
    ∀ n i, WF ((LazyOOP.force n h i).1) := by
  intro n
  induction n with
  | zero => intro i; exact hw
  | succ m ih =>
    intro i
    have hfin : ∀ (h1 : Heap), WF h1 → ∀ out tr, WF ((LazyOOP.finish h1 i out tr).1) := by
      intro h1 hw1 out tr
      cases out with
      | ok v =>
        rw [oop_finish_fst_ok]
        exact wf_set hw1 (by intro src' f' hx; cases hx)
      | error e =>
        by_cases hie : e.isError = true
        · rw [oop_finish_err_isErr tr hie]
          exact wf_set hw1 (by intro src' f' hx; cases hx)
        · rw [oop_finish_err_wrap tr (by simpa using hie)]
          exact wf_set hw1 (by intro src' f' hx; cases hx)
    rcases hv : LazyOOP.defined? (h.get i).val with _ | v
    · rcases he : LazyOOP.defined? (h.get i).exc with _ | e
      · rcases hs : (h.get i).susp with _ | c
        · rw [oop_force_invalid m hv he hs]
          exact wf_set hw (by intro src f hx; rw [hs] at hx; cases hx)
        · cases c with
          | base evs out =>
            rw [oop_force_base m hv he hs]
            exact hfin h hw out _
          | mapComp src f =>
            rcases hr : LazyOOP.force m h src with ⟨h1, r, tr⟩
            have hw1 : WF h1 := by
              have hx := ih src; rw [hr] at hx; exact hx
            rcases r with _ | r
            · rw [oop_force_mapc_none m hv he hs hr]; exact hw1
            · rcases r with e | v
              · rw [oop_force_mapc_err m hv he hs hr]
                exact hfin h1 hw1 _ _
              · rw [oop_force_mapc_ok m hv he hs hr]
                exact hfin h1 hw1 _ _
      · rw [oop_force_exc m hv he]; exact hw
    · rw [oop_force_val m hv]; exact hw

theorem oop_poststate {h : Heap} (hw : WF h) :
    ∀ n i h' r tr, i < h.cells.length →
    LazyOOP.defined? (h.get i).val = none →
    LazyOOP.defined? (h.get i).exc = none →
    LazyOOP.force n h i = (h', some r, tr) →
    (∀ v, r = .ok v → h'.get i = { h.get i with val := some v, susp := none }) ∧
    (∀ e, r = .error e → e.isError = true ∧
      h'.get i = { h.get i with exc := some e, susp := none }) := by
  intro n i h' r tr hlen hv he hforce
  cases n with
  | zero =>
    rw [show LazyOOP.force 0 h i = (h, none, []) from rfl] at hforce
    simp only [Prod.mk.injEq] at hforce
    exact absurd hforce.2.1 (by simp)
  | succ m =>
    have hfin : ∀ (h1 : Heap), h1.get i = h.get i → i < h1.cells.length →
        ∀ e0 tr', LazyOOP.finish h1 i (.error e0) tr' = (h', some r, tr) →
        (∀ v, r = .ok v → h'.get i = { h.get i with val := some v, susp := none }) ∧
        (∀ e, r = .error e → e.isError = true ∧
          h'.get i = { h.get i with exc := some e, susp := none }) := by
      intro h1 hgi hlen1 e0 tr' hforce
      by_cases hie : e0.isError = true
      · rw [oop_finish_err_isErr tr' hie] at hforce
        simp only [Prod.mk.injEq, Option.some.injEq] at hforce
        obtain ⟨hh, hrr, htr⟩ := hforce
        subst hh; subst hrr
        refine ⟨?_, ?_⟩
        · intro v hv'; cases hv'
        · intro e he'
          cases he'
          refine ⟨hie, ?_⟩
          rw [heap_get_set_self _ _ _ hlen1, hgi]
      · rw [oop_finish_err_wrap tr' (by simpa using hie)] at hforce
        simp only [Prod.mk.injEq, Option.some.injEq] at hforce
        obtain ⟨hh, hrr, htr⟩ := hforce
        subst hh; subst hrr
        refine ⟨?_, ?_⟩
        · intro v hv'; cases hv'
        · intro e he'
          cases he'
          refine ⟨rfl, ?_⟩
          rw [heap_get_set_self ({ h1 with next := h1.next + 1 }) i _ hlen1, hgi]
    rcases hs : (h.get i).susp with _ | c
    · rw [oop_force_invalid m hv he hs] at hforce
      simp only [Prod.mk.injEq, Option.some.injEq] at hforce
      obtain ⟨hh, hrr, htr⟩ := hforce
      subst hh; subst hrr
      refine ⟨?_, ?_⟩
      · intro v hv'; cases hv'
      · intro e he'
        cases he'
        refine ⟨rfl, ?_⟩
        rw [heap_get_set_self ({ h with next := h.next + 1 }) i _ hlen, hs]
    · cases c with
      | base evs out =>
        rw [oop_force_base m hv he hs] at hforce
        cases out with
        | ok w =>
          rw [oop_finish_ok w _ he] at hforce
          simp only [Prod.mk.injEq, Option.some.injEq] at hforce
          obtain ⟨hh, hrr, htr⟩ := hforce
          subst hh; subst hrr
          refine ⟨?_, ?_⟩
          · intro v hv'
            cases hv'
            rw [heap_get_set_self _ _ _ hlen]
          · intro e he'; cases he'
        | error e0 => exact hfin h rfl hlen e0 _ hforce
      | mapComp src f =>
        have hsrc : src < i := hw i src f hs
        rcases hr : LazyOOP.force m h src with ⟨h1, r1, tr1⟩
        have hgi : h1.get i = h.get i := by
          have hx := oop_local hw m src i hsrc; rw [hr] at hx; exact hx
        have hlen1 : i < h1.cells.length := by
          have hx := oop_force_len m h src; rw [hr] at hx
          rw [hx]; exact hlen
        rcases r1 with _ | r1
        · rw [oop_force_mapc_none m hv he hs hr] at hforce
          simp only [Prod.mk.injEq] at hforce
          exact absurd hforce.2.1 (by simp)
        · rcases r1 with e1 | v1
          · rw [oop_force_mapc_err m hv he hs hr] at hforce
            exact hfin h1 hgi hlen1 e1 _ hforce
          · rw [oop_force_mapc_ok m hv he hs hr] at hforce
            cases hfo : (f v1).2 with
            | ok w =>
              rw [hfo, oop_finish_ok w _ (by rw [hgi]; exact he)] at hforce
              simp only [Prod.mk.injEq, Option.some.injEq] at hforce
              obtain ⟨hh, hrr, htr⟩ := hforce
              subst hh; subst hrr
              refine ⟨?_, ?_⟩
              · intro v hv'
                cases hv'
                rw [heap_get_set_self _ _ _ hlen1, hgi]
              · intro e he'; cases he'
            | error e1 =>
              rw [hfo] at hforce
              exact hfin h1 hgi hlen1 e1 _ hforce

theorem oop_memo {h : Heap} :
    ∀ n j k,
    ((LazyOOP.defined? (h.get k).val).isSome ∨
      (LazyOOP.defined? (h.get k).exc).isSome) →
    ((LazyOOP.force n h j).1).get k = h.get k := by
  intro n
  induction n with
  | zero => intro j k _; rfl
  | succ m ih =>
    intro j k hk
    rcases hv : LazyOOP.defined? (h.get j).val with _ | v
    · rcases he : LazyOOP.defined? (h.get j).exc with _ | e
      · have hkj : k ≠ j := by
          intro hkj; subst hkj
          rcases hk with hk | hk
          · rw [hv] at hk; simp at hk
          · rw [he] at hk; simp at hk
        rcases hs : (h.get j).susp with _ | c
        · rw [oop_force_invalid m hv he hs]
          exact heap_get_set_ne _ _ _ _ hkj
        · cases c with
          | base evs out =>
            rw [oop_force_base m hv he hs]
            exact oop_finish_get_ne out _ hkj
          | mapComp src f =>
            rcases hr : LazyOOP.force m h src with ⟨h1, r, tr⟩
            have hk1 : h1.get k = h.get k := by
              have hx := ih src k hk; rw [hr] at hx; exact hx
            rcases r with _ | r
            · rw [oop_force_mapc_none m hv he hs hr]; exact hk1
            · rcases r with e | v
              · rw [oop_force_mapc_err m hv he hs hr, oop_finish_get_ne _ _ hkj]
                exact hk1
              · rw [oop_force_mapc_ok m hv he hs hr, oop_finish_get_ne _ _ hkj]
                exact hk1
      · rw [oop_force_exc m hv he]
    · rw [oop_force_val m hv]

theorem oop_force_again {h : Heap} (hw : WF h) :
    ∀ n i h' r tr, i < h.cells.length →
    LazyOOP.force n h i = (h', some r, tr) →
    (∀ v, r = .ok v → v ≠ JS.undef) →
    ∀ m, LazyOOP.force (m + 1) h' i = (h', some r, []) := by
  intro n i h' r tr hlen hforce hok m
  rcases hv : LazyOOP.defined? (h.get i).val with _ | v
  · rcases he : LazyOOP.defined? (h.get i).exc with _ | e
    · have hps := oop_poststate hw n i h' r tr hlen hv he hforce
      rcases r with e | v
      · obtain ⟨hie, hcell⟩ := hps.2 e rfl
        refine oop_force_exc m ?_ ?_
        · rw [hcell]; exact hv
        · rw [hcell]
          exact defined_some_ne (isError_ne_undef hie)
      · have hcell := hps.1 v rfl
        refine oop_force_val m ?_
        rw [hcell]
        exact defined_some_ne (hok v rfl)
    · cases n with
      | zero =>
        rw [show LazyOOP.force 0 h i = (h, none, []) from rfl] at hforce
        simp only [Prod.mk.injEq] at hforce
        exact absurd hforce.2.1 (by simp)
      | succ n' =>
        rw [oop_force_exc n' hv he] at hforce
        simp only [Prod.mk.injEq, Option.some.injEq] at hforce
        obtain ⟨hh, hrr, htr⟩ := hforce
        subst hh; subst hrr
        exact oop_force_exc m hv he
  · cases n with
    | zero =>
      rw [show LazyOOP.force 0 h i = (h, none, []) from rfl] at hforce
      simp only [Prod.mk.injEq] at hforce
      exact absurd hforce.2.1 (by simp)
    | succ n' =>
      rw [oop_force_val n' hv] at hforce
      simp only [Prod.mk.injEq, Option.some.injEq] at hforce
      obtain ⟨hh, hrr, htr⟩ := hforce
      subst hh; subst hrr
      exact oop_force_val m hv

/-! ## Tameness: the two facades coincide on tame heaps -/

theorem fp_finish_ok_exc {h1 : Heap} {i : Nat} {e : JS} (v : JS) (tr : List Ev)
    (he : (h1.get i).exc = some e) :
    LazyFP.finish h1 i (.ok v) tr =
      (h1.set i { h1.get i with val := some v, susp := none },
        some (.error e), tr) := by
  simp [LazyFP.finish, he]

theorem tame_cell_empty : TameCell Cell.empty :=
  ⟨fun _ hv => Option.noConfusion hv, fun _ he => Option.noConfusion he,
    fun _ hk => Option.noConfusion hk⟩

theorem tame_empty : Tame Heap.empty := fun _ => tame_cell_empty

theorem tame_set {h : Heap} {c : Cell} (ht : Tame h) (i : Nat)
    (hc : TameCell c) : Tame (h.set i c) := by
  intro j
  by_cases hji : j = i
  · subst hji
    by_cases hlen : j < h.cells.length
    · rw [heap_get_set_self _ _ _ hlen]; exact hc
    · have hoob : (h.set j c).get j = h.get j := by
        unfold Heap.get; rw [heap_set_oob _ (Nat.le_of_not_lt hlen)]
      rw [hoob]; exact ht j
  · rw [heap_get_set_ne _ _ _ _ hji]; exact ht j

theorem tame_push {h : Heap} {c : Cell} (ht : Tame h) (hc : TameCell c) :
    Tame (h.push c).1 := by
  intro j
  rcases lt_trichotomy j h.cells.length with hj | hj | hj
  · rw [heap_get_push_lt _ hj]; exact ht j
  · rw [hj, heap_get_push_self]; exact hc
  · have hge : (h.push c).1.cells.length ≤ j := by
      rw [heap_len_push]; omega
    rw [heap_get_oob hge]; exact tame_cell_empty

theorem tame_finish_eq {h1 : Heap} (ht : Tame h1) (i : Nat) {out : Except JS JS}
    (hto : TameOut out) (tr : List Ev) :
    LazyOOP.finish h1 i out tr = LazyFP.finish h1 i out tr := by
  cases out with
  | ok v =>
    rcases hexc : (h1.get i).exc with _ | e
    · simp [LazyOOP.finish, LazyFP.finish, hexc, LazyOOP.defined?]
    · have hie : e.isError = true := (ht i).2.1 e hexc
      simp [LazyOOP.finish, LazyFP.finish, hexc,
        defined_some_ne (isError_ne_undef hie)]
  | error e =>
    have hie : e.isError = true := hto
    rw [oop_finish_err_isErr tr hie, fp_finish_err]

theorem tame_finish_tame {h1 : Heap} (ht : Tame h1) (i : Nat)
    {out : Except JS JS} (hto : TameOut out) (tr : List Ev) :
    Tame ((LazyFP.finish h1 i out tr).1) := by
  cases out with
  | ok v =>
    rw [fp_finish_fst_ok]
    refine tame_set ht i ⟨?_, ?_, ?_⟩
    · intro v' hv'
      cases hv'
      exact hto
    · intro e he2; exact (ht i).2.1 e he2
    · intro k hk; cases hk
  | error e =>
    rw [fp_finish_fst_err]
    refine tame_set ht i ⟨?_, ?_, ?_⟩
    · intro v' hv'; exact (ht i).1 v' hv'
    · intro e' he2
      cases he2
      exact hto
    · intro k hk; cases hk

theorem tame_finish_out {h1 : Heap} (ht : Tame h1) (i : Nat)
    {out : Except JS JS} (hto : TameOut out) (tr : List Ev) :
    ∀ r, (LazyFP.finish h1 i out tr).2.1 = some r → TameOut r := by
  intro r hr
  cases out with
  | ok v =>
    rcases hexc : (h1.get i).exc with _ | e
    · rw [fp_finish_ok v tr hexc] at hr
      simp only [Option.some.injEq] at hr
      subst hr; exact hto
    · rw [fp_finish_ok_exc v tr hexc] at hr
      simp only [Option.some.injEq] at hr
      subst hr
      exact (ht i).2.1 e hexc
  | error e =>
    rw [fp_finish_err e tr] at hr
    simp only [Option.some.injEq] at hr
    subst hr; exact hto

theorem tame_force {h : Heap} (ht : Tame h) :
    ∀ n i, LazyOOP.force n h i = LazyFP.force n h i ∧
      Tame ((LazyFP.force n h i).1) ∧
      (∀ r, (LazyFP.force n h i).2.1 = some r → TameOut r) := by
  intro n
  induction n with
  | zero =>
    intro i
    exact ⟨rfl, ht, fun r hr => absurd hr (by simp [LazyFP.force])⟩
  | succ m ih =>
    intro i
    rcases hv : (h.get i).val with _ | v
    · have hv' : LazyOOP.defined? (h.get i).val = none := by rw [hv]; rfl
      rcases he : (h.get i).exc with _ | e
      · have he' : LazyOOP.defined? (h.get i).exc = none := by rw [he]; rfl
        rcases hs : (h.get i).susp with _ | c
        · rw [oop_force_invalid m hv' he' hs, fp_force_invalid m hv he hs]
          refine ⟨rfl, ?_, ?_⟩
          · refine tame_set (fun j => ht j) i ⟨?_, ?_, ?_⟩
            · intro v' hv2; rw [hv] at hv2; cases hv2
            · intro e' he2
              simp only [Option.some.injEq] at he2
              subst he2; rfl
            · intro k hk; rw [hs] at hk; cases hk
          · intro r hr
            simp only [Option.some.injEq] at hr
            subst hr; rfl
        · cases c with
          | base evs out =>
            have hto : TameOut out := (ht i).2.2 _ hs
            rw [oop_force_base m hv' he' hs, fp_force_base m hv he hs,
              tame_finish_eq ht i hto _]
            exact ⟨rfl, tame_finish_tame ht i hto _, tame_finish_out ht i hto _⟩
          | mapComp src f =>
            have htf : TameFn f := (ht i).2.2 _ hs
            obtain ⟨heq, hta, hre⟩ := ih src
            rcases hr : LazyFP.force m h src with ⟨h1, r1, tr1⟩
            have heq' : LazyOOP.force m h src = (h1, r1, tr1) := by rw [heq, hr]
            have hta1 : Tame h1 := by rw [hr] at hta; exact hta
            rcases r1 with _ | r1
            · rw [oop_force_mapc_none m hv' he' hs heq',
                fp_force_mapc_none m hv he hs hr]
              exact ⟨rfl, hta1, fun r hrr => absurd hrr (by simp)⟩
            · have htr1 : TameOut r1 := by
                rw [hr] at hre; exact hre r1 rfl
              rcases r1 with e1 | v1
              · rw [oop_force_mapc_err m hv' he' hs heq',
                  fp_force_mapc_err m hv he hs hr,
                  tame_finish_eq hta1 i htr1 _]
                exact ⟨rfl, tame_finish_tame hta1 i htr1 _,
                  tame_finish_out hta1 i htr1 _⟩
              · have htfv : TameOut (f v1).2 := htf v1
                rw [oop_force_mapc_ok m hv' he' hs heq',
                  fp_force_mapc_ok m hv he hs hr,
                  tame_finish_eq hta1 i htfv _]
                exact ⟨rfl, tame_finish_tame hta1 i htfv _,
                  tame_finish_out hta1 i htfv _⟩
      · have he' : LazyOOP.defined? (h.get i).exc = some e := by
          rw [he]; exact defined_some_ne (isError_ne_undef ((ht i).2.1 e he))
        rw [oop_force_exc m hv' he', fp_force_exc m hv he]
        refine ⟨rfl, ht, ?_⟩
        intro r hr
        simp only [Option.some.injEq] at hr
        subst hr
        exact (ht i).2.1 e he
    · have hvu : v ≠ JS.undef := (ht i).1 v hv
      have hv' : LazyOOP.defined? (h.get i).val = some v := by
        rw [hv]; exact defined_some_ne hvu
      rw [oop_force_val m hv', fp_force_val m hv]
      refine ⟨rfl, ht, ?_⟩
      intro r hr
      simp only [Option.some.injEq] at hr
      subst hr
      exact hvu

theorem tame_isval_eq {h : Heap} (ht : Tame h) (i : Nat) :
    LazyOOP.isVal h i = LazyFP.is_val h i := by
  rcases hv : (h.get i).val with _ | v
  · simp [LazyOOP.isVal, LazyFP.is_val, hv, LazyOOP.defined?]
  · have hvu : v ≠ JS.undef := (ht i).1 v hv
    simp [LazyOOP.isVal, LazyFP.is_val, hv, defined_some_ne hvu]

theorem tame_step_eq {h : Heap} (ht : Tame h) {op : Op} (hop : TameOp op) :
    stepOOP h op = stepFP h op ∧ Tame (stepFP h op).1 := by
  cases op with
  | newComp c =>
    refine ⟨rfl, ?_⟩
    refine tame_push ht ⟨?_, ?_, ?_⟩
    · intro v hv; cases hv
    · intro e he; cases he
    · intro k hk
      simp only [Option.some.injEq] at hk
      subst hk; exact hop
  | newVal v =>
    refine ⟨rfl, ?_⟩
    refine tame_push ht ⟨?_, ?_, ?_⟩
    · intro v' hv
      simp only [Option.some.injEq] at hv
      subst hv; exact hop
    · intro e he; cases he
    · intro k hk; cases hk
  | doForce fuel i =>
    obtain ⟨heq, hta, _⟩ := tame_force ht fuel i
    rcases hfr : LazyFP.force fuel h i with ⟨h', r', tr'⟩
    have heq' : LazyOOP.force fuel h i = (h', r', tr') := by rw [heq, hfr]
    have hta' : Tame h' := by rw [hfr] at hta; exact hta
    refine ⟨?_, ?_⟩
    · rcases r' with _ | r'
      · simp only [stepFP, stepOOP, hfr, heq']
      · rcases r' with e' | v' <;> simp only [stepFP, stepOOP, hfr, heq']
    · rcases r' with _ | r'
      · simp only [stepFP, hfr]; exact hta'
      · rcases r' with e' | v' <;> (simp only [stepFP, hfr]; exact hta')
  | askIsVal i =>
    refine ⟨?_, ht⟩
    simp only [stepFP, stepOOP, tame_isval_eq ht i]
  | doMap f i =>
    refine ⟨rfl, ?_⟩
    refine tame_push ht ⟨?_, ?_, ?_⟩
    · intro v hv; cases hv
    · intro e he; cases he
    · intro k hk
      simp only [Option.some.injEq] at hk
      subst hk; exact hop
  | doMapVal f i =>
    rcases hv : (h.get i).val with _ | v
    · have hv' : LazyOOP.defined? (h.get i).val = none := by rw [hv]; rfl
      constructor
      · simp only [stepFP, stepOOP, LazyFP.map_val, LazyOOP.mapVal, hv, defined_none,
          LazyFP.mk, LazyOOP.mk]
      · simp only [stepFP, LazyFP.map_val, hv]
        refine tame_push ht ⟨?_, ?_, ?_⟩
        · intro v' hv2; cases hv2
        · intro e he; cases he
        · intro k hk
          simp only [Option.some.injEq] at hk
          subst hk; exact hop
    · have hvu : v ≠ JS.undef := (ht i).1 v hv
      have hv' : LazyOOP.defined? (h.get i).val = some v := by
        rw [hv]; exact defined_some_ne hvu
      have htfv : TameOut (f v).2 := hop v
      rcases hfv : f v with ⟨evs, out⟩
      rcases out with e | w
      · constructor
        · simp only [stepFP, stepOOP, LazyFP.map_val, LazyOOP.mapVal, hv,
            defined_some_ne hvu, hfv]
        · simp only [stepFP, LazyFP.map_val, hv, hfv]
          exact ht
      · have hwu : w ≠ JS.undef := by rw [hfv] at htfv; exact htfv
        constructor
        · simp only [stepFP, stepOOP, LazyFP.map_val, LazyOOP.mapVal, hv,
            defined_some_ne hvu, hfv, LazyFP.from_val, LazyOOP.fromVal]
        · simp only [stepFP, LazyFP.map_val, hv, hfv]
          refine tame_push ht ⟨?_, ?_, ?_⟩
          · intro v' hv2
            simp only [Option.some.injEq] at hv2
            subst hv2; exact hwu
          · intro e he; cases he
          · intro k hk; cases hk

theorem tame_runseq_eq : ∀ (ops : List Op) (h : Heap), Tame h →
    (∀ op ∈ ops, TameOp op) → runSeqOOP h ops = runSeqFP h ops := by
  intro ops
  induction ops with
  | nil => intro h _ _; rfl
  | cons op rest ih =>
    intro h ht hops
    obtain ⟨heq, hta⟩ := tame_step_eq ht (hops op (by simp))
    have hrest := ih (stepFP h op).1 hta (fun o ho => hops o (by simp [ho]))
    simp only [runSeqFP, runSeqOOP, heq, hrest]

/-! ## Exactly-one-variant invariant -/

theorem exone_cells_congr {h h' : Heap} (hcc : h'.cells = h.cells)
    (hx : ExactlyOneFP h) : ExactlyOneFP h' := by
  intro j hj
  rw [hcc] at hj
  have hgj : h'.get j = h.get j := by
    unfold Heap.get; rw [hcc]
  rw [hgj]
  exact hx j hj

theorem exone_oop_cells_congr {h h' : Heap} (hcc : h'.cells = h.cells)
    (hx : ExactlyOneOOP h) : ExactlyOneOOP h' := by
  intro j hj
  rw [hcc] at hj
  have hgj : h'.get j = h.get j := by
    unfold Heap.get; rw [hcc]
  rw [hgj]
  exact hx j hj

theorem exone_fp_set {h : Heap} {c : Cell} (hx : ExactlyOneFP h) (i : Nat)
    (hc : (c.susp.isSome ∧ c.val = none ∧ c.exc = none) ∨
      (c.susp = none ∧ c.val.isSome ∧ c.exc = none) ∨
      (c.susp = none ∧ c.val = none ∧ c.exc.isSome)) :
    ExactlyOneFP (h.set i c) := by
  intro j hj
  rw [heap_len_set] at hj
  by_cases hji : j = i
  · subst hji; rw [heap_get_set_self _ _ _ hj]; exact hc
  · rw [heap_get_set_ne _ _ _ _ hji]; exact hx j hj

theorem exone_oop_set {h : Heap} {c : Cell} (hx : ExactlyOneOOP h) (i : Nat)
    (hc : (c.susp.isSome ∧ LazyOOP.defined? c.val = none ∧
        LazyOOP.defined? c.exc = none) ∨
      (c.susp = none ∧ (LazyOOP.defined? c.val).isSome ∧
        LazyOOP.defined? c.exc = none) ∨
      (c.susp = none ∧ LazyOOP.defined? c.val = none ∧
        (LazyOOP.defined? c.exc).isSome)) :
    ExactlyOneOOP (h.set i c) := by
  intro j hj
  rw [heap_len_set] at hj
  by_cases hji : j = i
  · subst hji; rw [heap_get_set_self _ _ _ hj]; exact hc
  · rw [heap_get_set_ne _ _ _ _ hji]; exact hx j hj

theorem exone_fp_push {h : Heap} {c : Cell} (hx : ExactlyOneFP h)
    (hc : (c.susp.isSome ∧ c.val = none ∧ c.exc = none) ∨
      (c.susp = none ∧ c.val.isSome ∧ c.exc = none) ∨
      (c.susp = none ∧ c.val = none ∧ c.exc.isSome)) :
    ExactlyOneFP (h.push c).1 := by
  intro j hj
  rw [heap_len_push] at hj
  by_cases hj' : j < h.cells.length
  · rw [heap_get_push_lt _ hj']; exact hx j hj'
  · have hje : j = h.cells.length := by omega
    subst hje; rw [heap_get_push_self]; exact hc

theorem exone_oop_push {h : Heap} {c : Cell} (hx : ExactlyOneOOP h)
    (hc : (c.susp.isSome ∧ LazyOOP.defined? c.val = none ∧
        LazyOOP.defined? c.exc = none) ∨
      (c.susp = none ∧ (LazyOOP.defined? c.val).isSome ∧
        LazyOOP.defined? c.exc = none) ∨
      (c.susp = none ∧ LazyOOP.defined? c.val = none ∧
        (LazyOOP.defined? c.exc).isSome)) :
    ExactlyOneOOP (h.push c).1 := by
  intro j hj
  rw [heap_len_push] at hj
  by_cases hj' : j < h.cells.length
  · rw [heap_get_push_lt _ hj']; exact hx j hj'
  · have hje : j = h.cells.length := by omega
    subst hje; rw [heap_get_push_self]; exact hc

theorem exone_fp_force {h : Heap} (hw : WF h) (hx : ExactlyOneFP h) :
    ∀ n i, ExactlyOneFP ((LazyFP.force n h i).1) := by
  intro n
  induction n with
  | zero => intro i; exact hx
  | succ m ih =>
    intro i
    rcases hv : (h.get i).val with _ | v
    · rcases he : (h.get i).exc with _ | e
      · rcases hs : (h.get i).susp with _ | c
        · by_cases hlen : i < h.cells.length
          · rcases hx i hlen with ⟨h1, _, _⟩ | ⟨_, h2, _⟩ | ⟨_, _, h3⟩
            · rw [hs] at h1; simp at h1
            · rw [hv] at h2; simp at h2
            · rw [he] at h3; simp at h3
          · rw [fp_force_invalid m hv he hs]
            refine exone_cells_congr ?_ hx
            exact heap_set_oob _ (Nat.le_of_not_lt hlen)
        · cases c with
          | base evs out =>
            rw [fp_force_base m hv he hs]
            cases out with
            | ok w =>
              rw [fp_finish_fst_ok]
              refine exone_fp_set hx i (Or.inr (Or.inl ⟨rfl, ?_, ?_⟩))
              · simp
              · exact he
            | error e =>
              rw [fp_finish_fst_err]
              refine exone_fp_set hx i (Or.inr (Or.inr ⟨rfl, ?_, ?_⟩))
              · exact hv
              · simp
          | mapComp src f =>
            have hsrc : src < i := hw i src f hs
            rcases hr : LazyFP.force m h src with ⟨h1, r1, tr1⟩
            have hx1 : ExactlyOneFP h1 := by
              have hy := ih src; rw [hr] at hy; exact hy
            have hgi : h1.get i = h.get i := by
              have hy := fp_local hw m src i hsrc; rw [hr] at hy; exact hy
            rcases r1 with _ | r1
            · rw [fp_force_mapc_none m hv he hs hr]; exact hx1
            · rcases r1 with e1 | v1
              · rw [fp_force_mapc_err m hv he hs hr, fp_finish_fst_err]
                refine exone_fp_set hx1 i (Or.inr (Or.inr ⟨rfl, ?_, ?_⟩))
                · rw [hgi]; exact hv
                · simp
              · rw [fp_force_mapc_ok m hv he hs hr]
                cases hfo : (f v1).2 with
                | ok w =>
                  rw [fp_finish_fst_ok]
                  refine exone_fp_set hx1 i (Or.inr (Or.inl ⟨rfl, ?_, ?_⟩))
                  · simp
                  · rw [hgi]; exact he
                | error e1 =>
                  rw [fp_finish_fst_err]
                  refine exone_fp_set hx1 i (Or.inr (Or.inr ⟨rfl, ?_, ?_⟩))
                  · rw [hgi]; exact hv
                  · simp
      · rw [fp_force_exc m hv he]; exact hx
    · rw [fp_force_val m hv]; exact hx

theorem exone_oop_force {h : Heap} (hw : WF h) (hu : NoUndefSusp h)
    (hx : ExactlyOneOOP h) :
    ∀ n i, ExactlyOneOOP ((LazyOOP.force n h i).1) := by
  intro n
  induction n with
  | zero => intro i; exact hx
  | succ m ih =>
    intro i
    rcases hv : LazyOOP.defined? (h.get i).val with _ | v
    · rcases he : LazyOOP.defined? (h.get i).exc with _ | e
      · rcases hs : (h.get i).susp with _ | c
        · by_cases hlen : i < h.cells.length
          · rcases hx i hlen with ⟨h1, _, _⟩ | ⟨_, h2, _⟩ | ⟨_, _, h3⟩
            · rw [hs] at h1; simp at h1
            · rw [hv] at h2; simp at h2
            · rw [he] at h3; simp at h3
          · rw [oop_force_invalid m hv he hs]
            refine exone_oop_cells_congr ?_ hx
            exact heap_set_oob _ (Nat.le_of_not_lt hlen)
        · have hnc : NoUndefComp c := hu i c hs
          cases c with
          | base evs out =>
            rw [oop_force_base m hv he hs]
            cases out with
            | ok w =>
              have hwu : w ≠ JS.undef := hnc
              rw [oop_finish_fst_ok]
              refine exone_oop_set hx i (Or.inr (Or.inl ⟨rfl, ?_, ?_⟩))
              · rw [defined_some_ne hwu]; simp
              · exact he
            | error e =>
              by_cases hie : e.isError = true
              · rw [oop_finish_err_isErr _ hie]
                refine exone_oop_set hx i (Or.inr (Or.inr ⟨rfl, ?_, ?_⟩))
                · exact hv
                · rw [defined_some_ne (isError_ne_undef hie)]; simp
              · rw [oop_finish_err_wrap _ (by simpa using hie)]
                refine exone_oop_set hx i (Or.inr (Or.inr ⟨rfl, ?_, ?_⟩))
                · exact hv
                · simp [LazyOOP.defined?]
          | mapComp src f =>
            have hsrc : src < i := hw i src f hs
            rcases hr : LazyOOP.force m h src with ⟨h1, r1, tr1⟩
            have hx1 : ExactlyOneOOP h1 := by
              have hy := ih src; rw [hr] at hy; exact hy
            have hgi : h1.get i = h.get i := by
              have hy := oop_local hw m src i hsrc; rw [hr] at hy; exact hy
            rcases r1 with _ | r1
            · rw [oop_force_mapc_none m hv he hs hr]; exact hx1
            · rcases r1 with e1 | v1
              · rw [oop_force_mapc_err m hv he hs hr]
                by_cases hie : e1.isError = true
                · rw [oop_finish_err_isErr _ hie]
                  refine exone_oop_set hx1 i (Or.inr (Or.inr ⟨rfl, ?_, ?_⟩))
                  · rw [hgi]; exact hv
                  · rw [defined_some_ne (isError_ne_undef hie)]; simp
                · rw [oop_finish_err_wrap _ (by simpa using hie)]
                  refine exone_oop_set hx1 i (Or.inr (Or.inr ⟨rfl, ?_, ?_⟩))
                  · rw [hgi]; exact hv
                  · simp [LazyOOP.defined?]
              · rw [oop_force_mapc_ok m hv he hs hr]
                cases hfo : (f v1).2 with
                | ok w =>
                  have hwu : w ≠ JS.undef := by
                    have := hnc v1; rw [hfo] at this; exact this
                  rw [oop_finish_fst_ok]
                  refine exone_oop_set hx1 i (Or.inr (Or.inl ⟨rfl, ?_, ?_⟩))
                  · rw [defined_some_ne hwu]; simp
                  · rw [hgi]; exact he
                | error e1 =>
                  by_cases hie : e1.isError = true
                  · rw [oop_finish_err_isErr _ hie]
                    refine exone_oop_set hx1 i (Or.inr (Or.inr ⟨rfl, ?_, ?_⟩))
                    · rw [hgi]; exact hv
                    · rw [defined_some_ne (isError_ne_undef hie)]; simp
                  · rw [oop_finish_err_wrap _ (by simpa using hie)]
                    refine exone_oop_set hx1 i (Or.inr (Or.inr ⟨rfl, ?_, ?_⟩))
                    · rw [hgi]; exact hv
                    · simp [LazyOOP.defined?]
      · rw [oop_force_exc m hv he]; exact hx
    · rw [oop_force_val m hv]; exact hx

theorem exone_fp_mapval {h : Heap} (hx : ExactlyOneFP h) (f : Fn) (x : Nat) :
    ExactlyOneFP ((LazyFP.map_val f h x).1) := by
  rcases hv : (h.get x).val with _ | v
  · simp only [LazyFP.map_val, hv]
    exact exone_fp_push hx (Or.inl ⟨by simp, rfl, rfl⟩)
  · rcases hfv : f v with ⟨evs, out⟩
    rcases out with e | w
    · simp only [LazyFP.map_val, hv, hfv]; exact hx
    · simp only [LazyFP.map_val, hv, hfv]
      exact exone_fp_push hx (Or.inr (Or.inl ⟨rfl, by simp, rfl⟩))

theorem exone_oop_mapval {h : Heap} (hx : ExactlyOneOOP h) (f : Fn) (x : Nat)
    (hf : ∀ v, NoUndefOut (f v).2) :
    ExactlyOneOOP ((LazyOOP.mapVal f h x).1) := by
  rcases hv : LazyOOP.defined? (h.get x).val with _ | v
  · simp only [LazyOOP.mapVal, hv]
    exact exone_oop_push hx (Or.inl ⟨by simp, rfl, rfl⟩)
  · rcases hfv : f v with ⟨evs, out⟩
    rcases out with e | w
    · simp only [LazyOOP.mapVal, hv, hfv]; exact hx
    · have hwu : w ≠ JS.undef := by
        have hz := hf v; rw [hfv] at hz; exact hz
      simp only [LazyOOP.mapVal, hv, hfv]
      refine exone_oop_push hx (Or.inr (Or.inl ⟨rfl, ?_, rfl⟩))
      rw [defined_some_ne hwu]; simp

/-! ## Well-formedness of concrete heaps -/

theorem wf_empty : WF Heap.empty :=
  fun _ _ _ hx => Option.noConfusion hx

theorem wf_push {h : Heap} (hw : WF h) {c : Cell}
    (hc : ∀ src f, c.susp = some (.mapComp src f) → src < h.cells.length) :
    WF (h.push c).1 := by
  intro j src f hj
  rcases lt_trichotomy j h.cells.length with hjl | hjl | hjl
  · rw [heap_get_push_lt _ hjl] at hj; exact hw j src f hj
  · rw [hjl, heap_get_push_self] at hj
    rw [hjl]; exact hc src f hj
  · have hge : (h.push c).1.cells.length ≤ j := by
      rw [heap_len_push]; omega
    rw [heap_get_oob hge] at hj; cases hj

theorem wf_hPendFP : WF hPendFP :=
  wf_push wf_empty (fun src f hx => by simp [cellComp] at hx)

theorem wf_hPendOOP : WF hPendOOP :=
  wf_push wf_empty (fun src f hx => by simp [cellComp] at hx)

/-! ## The claims -/

/-- **C1** (amended).  Idempotence of `force`: once a `force` of cell `i`
completes with outcome `r`, every later `force` of the same cell returns
the very same outcome — the same memoized value, or the identical stored
error object — with the heap unchanged and an empty event trace, i.e. the
computation is not re-run.  This holds unconditionally in the FP facade;
in the OOP facade it additionally requires that a successful outcome is
not the value `undefined`: an OOP cell whose computation returned
`undefined` answers `undefined` once and raises a `Lazy.Undefined` error
on every later `force` (see `c1_counterexample`). -/
theorem c1_force_idempotent (h : Heap) (n i : Nat) (hw : WF h)
    (hlen : i < h.cells.length) :
    (∀ h' r tr, LazyFP.force n h i = (h', some r, tr) →
      ∀ m, LazyFP.force (m + 1) h' i = (h', some r, [])) ∧
    (∀ h' r tr, LazyOOP.force n h i = (h', some r, tr) →
      (∀ v, r = .ok v → v ≠ JS.undef) →
      ∀ m, LazyOOP.force (m + 1) h' i = (h', some r, [])) :=
  ⟨fun h' r tr hf m => fp_force_again hw n i h' r tr hlen hf m,
   fun h' r tr hf hok m => oop_force_again hw n i h' r tr hlen hf hok m⟩

/-- **C1 counterexample.**  The OOP cell wrapping `() => undefined`: the
first `force` returns `undefined`, but the second `force` of the same cell
raises a `Lazy.Undefined` error — not the same outcome, refuting the claim
as stated for the OOP facade. -/
theorem c1_counterexample :
    (LazyOOP.force 2 hUndefOOP 0).2.1 = some (Except.ok JS.undef) ∧
    (LazyOOP.force 2 (LazyOOP.force 2 hUndefOOP 0).1 0).2.1 =
      some (Except.error (JS.error 0 ErrClass.lazyUndefined undefMsg)) :=
  ⟨rfl, rfl⟩

/-- Witness for C1 at a concrete cell wrapping `() => 69`: after the first
`force` has memoized `69`, a later `force` returns the same value with no
observable work, in both facades. -/
theorem c1_witness :
    LazyFP.force 1 hDoneFP 0 = (hDoneFP, some (Except.ok (JS.num 69)), []) ∧
    LazyOOP.force 1 hDoneOOP 0 = (hDoneOOP, some (Except.ok (JS.num 69)), []) := by
  constructor
  · exact (c1_force_idempotent hPendFP 2 0 wf_hPendFP (by decide)).1
      hDoneFP (Except.ok (JS.num 69)) [Ev.ran 0, Ev.user 5] (by rfl) 0
  · exact (c1_force_idempotent hPendOOP 2 0 wf_hPendOOP (by decide)).2
      hDoneOOP (Except.ok (JS.num 69)) [Ev.ran 0, Ev.user 5] (by rfl)
      (fun v hv => by cases hv; exact fun hc => JS.noConfusion hc) 0

/-- **C8** (amended).  `fromValue(v)` starts `Done`: `isEvaluated` answers
`true` and `force` returns exactly the stored value `v` (the same term),
with no computation invoked (empty trace) and the heap unchanged — for
every `v` in the FP facade, and for every `v ≠ undefined` in the OOP
facade.  Construction itself is a total function that runs no code and
cannot fail. -/
theorem c8_from_value (h : Heap) (v : JS) (n : Nat) :
    (LazyFP.is_val (LazyFP.from_val h v).1 (LazyFP.from_val h v).2 = true ∧
      LazyFP.force (n + 1) (LazyFP.from_val h v).1 (LazyFP.from_val h v).2 =
        ((LazyFP.from_val h v).1, some (.ok v), [])) ∧
    (v ≠ JS.undef →
      LazyOOP.isVal (LazyOOP.fromVal h v).1 (LazyOOP.fromVal h v).2 = true ∧
      LazyOOP.force (n + 1) (LazyOOP.fromVal h v).1 (LazyOOP.fromVal h v).2 =
        ((LazyOOP.fromVal h v).1, some (.ok v), [])) := by
  have hgetF : (LazyFP.from_val h v).1.get (LazyFP.from_val h v).2 =
      ⟨none, some v, none⟩ := heap_get_push_self h _
  constructor
  · constructor
    · simp [LazyFP.is_val, hgetF]
    · exact fp_force_val n (by rw [hgetF])
  · intro hvu
    have hgetO : (LazyOOP.fromVal h v).1.get (LazyOOP.fromVal h v).2 =
        ⟨none, some v, none⟩ := heap_get_push_self h _
    constructor
    · simp [LazyOOP.isVal, hgetO, defined_some_ne hvu]
    · refine oop_force_val n ?_
      rw [hgetO]; exact defined_some_ne hvu

/-- **C8 counterexample.**  In the OOP facade `fromVal(undefined)` is not
`Done`: `isVal` answers `false` and `force` raises a `Lazy.Undefined`
error instead of returning `undefined`. -/
theorem c8_counterexample :
    LazyOOP.isVal (LazyOOP.fromVal Heap.empty JS.undef).1 0 = false ∧
    (LazyOOP.force 1 (LazyOOP.fromVal Heap.empty JS.undef).1 0).2.1 =
      some (Except.error (JS.error 0 ErrClass.lazyUndefined undefMsg)) :=
  ⟨rfl, rfl⟩

/-- Witness for C8 at `v = 7`: `fromValue(7)` is already evaluated and
forcing it returns `7` without running any code, in both facades. -/
theorem c8_witness :
    LazyFP.is_val (LazyFP.from_val Heap.empty (JS.num 7)).1 0 = true ∧
    LazyOOP.force 1 (LazyOOP.fromVal Heap.empty (JS.num 7)).1 0 =
      ((LazyOOP.fromVal Heap.empty (JS.num 7)).1, some (.ok (JS.num 7)), []) := by
  refine ⟨(c8_from_value Heap.empty (JS.num 7) 0).1.1, ?_⟩
  exact ((c8_from_value Heap.empty (JS.num 7) 0).2 (fun hc => JS.noConfusion hc)).2

/-- **C9** (confirmed).  Forcing a cell in none of the three variants (no
computation and no recorded outcome) records and raises a fresh error of
the dedicated `Lazy.Undefined` class — distinct from the plain `Error`
class `errorFrom` produces for ordinary computation failures — and this
error is memoized as a `Failed` outcome: every later `force` raises the
identical stored error object again, in both facades. -/
theorem c9_corrupted_cell (h : Heap) (i n m : Nat) (hlen : i < h.cells.length)
    (hcell : h.get i = Cell.empty) :
    ((LazyFP.force (n + 1) h i).2 =
      (some (.error (JS.error h.next ErrClass.lazyUndefined undefMsg)), []) ∧
     ((LazyFP.force (n + 1) h i).1).get i =
      { Cell.empty with
        exc := some (JS.error h.next ErrClass.lazyUndefined undefMsg) } ∧
     LazyFP.force (m + 1) (LazyFP.force (n + 1) h i).1 i =
      ((LazyFP.force (n + 1) h i).1,
        some (.error (JS.error h.next ErrClass.lazyUndefined undefMsg)), [])) ∧
    ((LazyOOP.force (n + 1) h i).2 =
      (some (.error (JS.error h.next ErrClass.lazyUndefined undefMsg)), []) ∧
     ((LazyOOP.force (n + 1) h i).1).get i =
      { Cell.empty with
        exc := some (JS.error h.next ErrClass.lazyUndefined undefMsg) } ∧
     LazyOOP.force (m + 1) (LazyOOP.force (n + 1) h i).1 i =
      ((LazyOOP.force (n + 1) h i).1,
        some (.error (JS.error h.next ErrClass.lazyUndefined undefMsg)), [])) ∧
    errClassOf (JS.error h.next ErrClass.lazyUndefined undefMsg) =
      some ErrClass.lazyUndefined ∧
    (∀ (h2 : Heap) (e : JS), e.isError = false →
      errClassOf (LazyOOP.errorFrom h2 e).1 = some ErrClass.plain) := by
  have hv : (h.get i).val = none := by rw [hcell]; rfl
  have he : (h.get i).exc = none := by rw [hcell]; rfl
  have hs : (h.get i).susp = none := by rw [hcell]; rfl
  have hv' : LazyOOP.defined? (h.get i).val = none := by rw [hcell]; rfl
  have he' : LazyOOP.defined? (h.get i).exc = none := by rw [hcell]; rfl
  rw [fp_force_invalid n hv he hs, oop_force_invalid n hv' he' hs]
  have hget2 :
      (({ h with next := h.next + 1 }).set i
        { h.get i with
          exc := some (JS.error h.next ErrClass.lazyUndefined undefMsg) }).get i =
      { Cell.empty with
        exc := some (JS.error h.next ErrClass.lazyUndefined undefMsg) } := by
    rw [heap_get_set_self ({ h with next := h.next + 1 }) i _ hlen, hcell]
  refine ⟨⟨rfl, hget2, ?_⟩, ⟨rfl, hget2, ?_⟩, rfl, ?_⟩
  · refine fp_force_exc m ?_ ?_
    · rw [hget2]; rfl
    · rw [hget2]
  · refine oop_force_exc m ?_ ?_
    · rw [hget2]; rfl
    · rw [hget2]; rfl
  · intro h2 e hie
    simp [LazyOOP.errorFrom, hie, errClassOf]

/-- Witness for C9 at the concrete corrupted heap `hCorrupt`: forcing the
corrupted cell twice raises the same memoized `Lazy.Undefined` error
object both times. -/
theorem c9_witness :
    LazyFP.force 1 (LazyFP.force 1 hCorrupt 0).1 0 =
      ((LazyFP.force 1 hCorrupt 0).1,
        some (Except.error (JS.error 0 ErrClass.lazyUndefined undefMsg)), []) :=
  (c9_corrupted_cell hCorrupt 0 0 0 (by decide) rfl).1.2.2

/-- **C3** (amended).  When a pending cell's computation raises a value
`v` that is not an `Error` object: the *OOP* facade normalizes it via
`errorFrom` into a fresh `Error` object carrying the string representation
`String(v)`, records that object in the cell, raises it, and re-raises the
identical object on every future `force`.  The *FP* facade performs no
normalization: it records the raised value itself, unchanged, and
re-raises that same non-`Error` value on every future `force` (see
`c3_counterexample`). -/
theorem c3_error_normalization (h : Heap) (i n m : Nat) (evs : List Nat)
    (v : JS) (hlen : i < h.cells.length)
    (hcell : h.get i = ⟨some (Comp.base evs (Except.error v)), none, none⟩)
    (hv : v.isError = false) :
    ((LazyOOP.force (n + 1) h i).2 =
      (some (.error (JS.error h.next ErrClass.plain v.toStr)),
        Ev.ran i :: evs.map Ev.user) ∧
     ((LazyOOP.force (n + 1) h i).1).get i =
      ⟨none, none, some (JS.error h.next ErrClass.plain v.toStr)⟩ ∧
     LazyOOP.force (m + 1) (LazyOOP.force (n + 1) h i).1 i =
      ((LazyOOP.force (n + 1) h i).1,
        some (.error (JS.error h.next ErrClass.plain v.toStr)), [])) ∧
    ((LazyFP.force (n + 1) h i).2 =
      (some (.error v), Ev.ran i :: evs.map Ev.user) ∧
     ((LazyFP.force (n + 1) h i).1).get i = ⟨none, none, some v⟩ ∧
     LazyFP.force (m + 1) (LazyFP.force (n + 1) h i).1 i =
      ((LazyFP.force (n + 1) h i).1, some (.error v), [])) := by
  have hvl : (h.get i).val = none := by rw [hcell]
  have hel : (h.get i).exc = none := by rw [hcell]
  have hsl : (h.get i).susp = some (Comp.base evs (Except.error v)) := by
    rw [hcell]
  have hv' : LazyOOP.defined? (h.get i).val = none := by rw [hcell]; rfl
  have he' : LazyOOP.defined? (h.get i).exc = none := by rw [hcell]; rfl
  rw [oop_force_base n hv' he' hsl, oop_finish_err_wrap _ hv,
    fp_force_base n hvl hel hsl, fp_finish_err]
  have hgetO :
      (({ h with next := h.next + 1 }).set i
        { h.get i with
          exc := some (JS.error h.next ErrClass.plain v.toStr), susp := none }).get i =
      ⟨none, none, some (JS.error h.next ErrClass.plain v.toStr)⟩ := by
    rw [heap_get_set_self ({ h with next := h.next + 1 }) i _ hlen, hcell]
  have hgetF :
      (h.set i { h.get i with exc := some v, susp := none }).get i =
      ⟨none, none, some v⟩ := by
    rw [heap_get_set_self h i _ hlen, hcell]
  refine ⟨⟨rfl, hgetO, ?_⟩, rfl, hgetF, ?_⟩
  · refine oop_force_exc m ?_ ?_
    · rw [hgetO]; rfl
    · rw [hgetO]; rfl
  · refine fp_force_exc m ?_ ?_
    · rw [hgetF]
    · rw [hgetF]

/-- **C3 counterexample.**  The FP cell wrapping `() => { throw "boom" }`
(raising a plain string, not an `Error`): `force` records the raw string
in the cell and re-raises it — no normalization into an error object
happens, refuting the claim as stated for the FP facade. -/
theorem c3_counterexample :
    (LazyFP.force 2 hBoomFP 0).2.1 = some (Except.error (JS.str strBoom)) ∧
    ((LazyFP.force 2 hBoomFP 0).1).get 0 = ⟨none, none, some (JS.str strBoom)⟩ ∧
    (JS.str strBoom).isError = false :=
  ⟨rfl, rfl, rfl⟩

/-- Witness for C3 at the concrete cell raising the string `"boom"`: the
OOP facade stores and raises a fresh `Error` with message `"boom"`, the FP
facade stores and raises the raw string. -/
theorem c3_witness :
    (LazyOOP.force 1 hBoomOOP 0).2 =
      (some (Except.error (JS.error 0 ErrClass.plain strBoom)), [Ev.ran 0]) ∧
    (LazyFP.force 1 hBoomFP 0).2 =
      (some (Except.error (JS.str strBoom)), [Ev.ran 0]) := by
  have hc := c3_error_normalization hBoomFP 0 0 0 [] (JS.str strBoom)
    (by decide) rfl rfl
  exact ⟨hc.1.1, hc.2.1⟩

/-- **C5** (amended).  `isEvaluated(mapVal(f, x))` equals `isEvaluated(x)`
taken at the moment of the call, whenever `mapVal` returns a cell, and the
eager application of `f` happens only when `x` was already `Done` (on a
not-yet-evaluated receiver `mapVal` builds a thunk without applying `f` —
empty trace).  This holds unconditionally in the FP facade; in the OOP
facade it additionally requires that the value `f` produces in the eager
path is not `undefined` (see `c5_counterexample`). -/
theorem c5_mapval_preserves_isval (h : Heap) (x : Nat) (f : Fn) :
    (∀ h' y tr, LazyFP.map_val f h x = (h', .ok y, tr) →
      LazyFP.is_val h' y = LazyFP.is_val h x) ∧
    (LazyFP.is_val h x = false →
      LazyFP.map_val f h x =
        ((LazyFP.mk h (.mapComp x f)).1, .ok (LazyFP.mk h (.mapComp x f)).2, [])) ∧
    (∀ h' y tr, LazyOOP.mapVal f h x = (h', .ok y, tr) →
      (∀ v w, LazyOOP.defined? (h.get x).val = some v → (f v).2 = .ok w →
        w ≠ JS.undef) →
      LazyOOP.isVal h' y = LazyOOP.isVal h x) ∧
    (LazyOOP.isVal h x = false →
      LazyOOP.mapVal f h x =
        ((LazyOOP.mk h (.mapComp x f)).1, .ok (LazyOOP.mk h (.mapComp x f)).2, [])) := by
  refine ⟨?_, ?_, ?_, ?_⟩
  · intro h' y tr hmv
    rcases hvx : (h.get x).val with _ | v
    · simp only [LazyFP.map_val, hvx, Prod.mk.injEq, Except.ok.injEq] at hmv
      obtain ⟨hh, hy, htr⟩ := hmv
      subst hh; subst hy
      have hgy : (LazyFP.mk h (Comp.mapComp x f)).1.get
          (LazyFP.mk h (Comp.mapComp x f)).2 =
          ⟨some (Comp.mapComp x f), none, none⟩ := heap_get_push_self h _
      simp [LazyFP.is_val, hvx, hgy]
    · rcases hfv : f v with ⟨evs, out⟩
      rcases out with e | w
      · simp only [LazyFP.map_val, hvx, hfv, Prod.mk.injEq] at hmv
        exact absurd hmv.2.1 (by simp)
      · simp only [LazyFP.map_val, hvx, hfv, Prod.mk.injEq, Except.ok.injEq] at hmv
        obtain ⟨hh, hy, htr⟩ := hmv
        subst hh; subst hy
        have hgy : (LazyFP.from_val h w).1.get (LazyFP.from_val h w).2 =
            ⟨none, some w, none⟩ := heap_get_push_self h _
        simp [LazyFP.is_val, hvx, hgy]
  · intro hfalse
    have hvx : (h.get x).val = none := by
      rcases hvx : (h.get x).val with _ | v
      · rfl
      · rw [LazyFP.is_val, hvx] at hfalse; simp at hfalse
    simp only [LazyFP.map_val, hvx]
  · intro h' y tr hmv hok
    rcases hvx : LazyOOP.defined? (h.get x).val with _ | v
    · simp only [LazyOOP.mapVal, hvx, Prod.mk.injEq, Except.ok.injEq] at hmv
      obtain ⟨hh, hy, htr⟩ := hmv
      subst hh; subst hy
      have hgy : (LazyOOP.mk h (Comp.mapComp x f)).1.get
          (LazyOOP.mk h (Comp.mapComp x f)).2 =
          ⟨some (Comp.mapComp x f), none, none⟩ := heap_get_push_self h _
      simp [LazyOOP.isVal, hvx, hgy, defined_none]
    · rcases hfv : f v with ⟨evs, out⟩
      rcases out with e | w
      · simp only [LazyOOP.mapVal, hvx, hfv, Prod.mk.injEq] at hmv
        exact absurd hmv.2.1 (by simp)
      · have hwu : w ≠ JS.undef := hok v w hvx (by rw [hfv])
        simp only [LazyOOP.mapVal, hvx, hfv, Prod.mk.injEq, Except.ok.injEq] at hmv
        obtain ⟨hh, hy, htr⟩ := hmv
        subst hh; subst hy
        have hgy : (LazyOOP.fromVal h w).1.get (LazyOOP.fromVal h w).2 =
            ⟨none, some w, none⟩ := heap_get_push_self h _
        simp [LazyOOP.isVal, hvx, hgy, defined_some_ne hwu]
  · intro hfalse
    have hvx : LazyOOP.defined? (h.get x).val = none := by
      rcases hvx : LazyOOP.defined? (h.get x).val with _ | v
      · rfl
      · rw [LazyOOP.isVal, hvx] at hfalse; simp at hfalse
    simp only [LazyOOP.mapVal, hvx]

/-- **C5 counterexample.**  In the OOP facade with `x = fromVal(1)`
(evaluated: `isVal x = true`) and `f = () => undefined`: `mapVal(f, x)`
succeeds eagerly, yet the resulting cell's `isVal` is `false` — not equal
to `isVal x`. -/
theorem c5_counterexample :
    LazyOOP.isVal hOneOOP 0 = true ∧
    (LazyOOP.mapVal fUndef hOneOOP 0).2.1 = Except.ok 1 ∧
    LazyOOP.isVal (LazyOOP.mapVal fUndef hOneOOP 0).1 1 = false :=
  ⟨rfl, rfl, rfl⟩

/-- Witness for C5: for the FP cell wrapping `() => 69`, not yet forced,
`mapVal` defers and the new cell's `is_val` equals `is_val x` (both
`false`); the trace is empty — `f` was not applied. -/
theorem c5_witness :
    LazyFP.is_val (LazyFP.map_val fEv hPendFP 0).1 1 = LazyFP.is_val hPendFP 0 ∧
    LazyFP.map_val fEv hPendFP 0 =
      ((LazyFP.mk hPendFP (.mapComp 0 fEv)).1,
        .ok (LazyFP.mk hPendFP (.mapComp 0 fEv)).2, []) := by
  constructor
  · exact (c5_mapval_preserves_isval hPendFP 0 fEv).1
      (LazyFP.map_val fEv hPendFP 0).1 1 [] (by rfl)
  · exact (c5_mapval_preserves_isval hPendFP 0 fEv).2.1 (by rfl)

/-! ## Forcing a freshly created `map` cell -/

theorem mapcell_get_y (h : Heap) (x : Nat) (f : Fn) :
    (mapCellHeap h x f).get h.cells.length =
      ⟨some (Comp.mapComp x f), none, none⟩ :=
  heap_get_push_self h _

theorem mapcell_get_lt {h : Heap} {j : Nat} (x : Nat) (f : Fn)
    (hj : j < h.cells.length) : (mapCellHeap h x f).get j = h.get j :=
  heap_get_push_lt _ hj

theorem wf_mapCellHeap {h : Heap} (hw : WF h) {x : Nat}
    (hx : x < h.cells.length) (f : Fn) : WF (mapCellHeap h x f) :=
  wf_push hw (fun src g hxe => by cases hxe; exact hx)

theorem fp_mapcell_force_ok {h : Heap} (hw : WF h) {x : Nat} (f : Fn)
    (hx : x < h.cells.length) (n : Nat) {h1 : Heap} {v : JS} {tr1 : List Ev}
    (hr : LazyFP.force n (mapCellHeap h x f) x = (h1, some (.ok v), tr1)) :
    ∀ w, (f v).2 = .ok w →
    LazyFP.force (n + 1) (mapCellHeap h x f) h.cells.length =
      (h1.set h.cells.length ⟨none, some w, none⟩, some (.ok w),
        Ev.ran h.cells.length :: (tr1 ++ Ev.fapp :: ((f v).1.map Ev.user))) := by
  intro w hfw
  have hcy := mapcell_get_y h x f
  have hvy : ((mapCellHeap h x f).get h.cells.length).val = none := by rw [hcy]
  have hey : ((mapCellHeap h x f).get h.cells.length).exc = none := by rw [hcy]
  have hsy : ((mapCellHeap h x f).get h.cells.length).susp =
      some (.mapComp x f) := by rw [hcy]
  have hg1 : h1.get h.cells.length = ⟨some (Comp.mapComp x f), none, none⟩ := by
    have hl := fp_local (wf_mapCellHeap hw hx f) n x h.cells.length hx
    rw [hr] at hl; rw [hl, hcy]
  rw [fp_force_mapc_ok n hvy hey hsy hr, hfw,
    fp_finish_ok w _ (by rw [hg1]), hg1]

theorem fp_mapcell_force_err {h : Heap} (hw : WF h) {x : Nat} (f : Fn)
    (hx : x < h.cells.length) (n : Nat) {h1 : Heap} {e : JS} {tr1 : List Ev}
    (hr : LazyFP.force n (mapCellHeap h x f) x = (h1, some (.error e), tr1)) :
    LazyFP.force (n + 1) (mapCellHeap h x f) h.cells.length =
      (h1.set h.cells.length ⟨none, none, some e⟩, some (.error e),
        Ev.ran h.cells.length :: tr1) := by
  have hcy := mapcell_get_y h x f
  have hvy : ((mapCellHeap h x f).get h.cells.length).val = none := by rw [hcy]
  have hey : ((mapCellHeap h x f).get h.cells.length).exc = none := by rw [hcy]
  have hsy : ((mapCellHeap h x f).get h.cells.length).susp =
      some (.mapComp x f) := by rw [hcy]
  have hg1 : h1.get h.cells.length = ⟨some (Comp.mapComp x f), none, none⟩ := by
    have hl := fp_local (wf_mapCellHeap hw hx f) n x h.cells.length hx
    rw [hr] at hl; rw [hl, hcy]
  rw [fp_force_mapc_err n hvy hey hsy hr, fp_finish_err, hg1]

theorem fp_mapcell_force_fok_err {h : Heap} (hw : WF h) {x : Nat} (f : Fn)
    (hx : x < h.cells.length) (n : Nat) {h1 : Heap} {v : JS} {tr1 : List Ev}
    (hr : LazyFP.force n (mapCellHeap h x f) x = (h1, some (.ok v), tr1)) :
    ∀ e, (f v).2 = .error e →
    LazyFP.force (n + 1) (mapCellHeap h x f) h.cells.length =
      (h1.set h.cells.length ⟨none, none, some e⟩, some (.error e),
        Ev.ran h.cells.length :: (tr1 ++ Ev.fapp :: ((f v).1.map Ev.user))) := by
  intro e hfe
  have hcy := mapcell_get_y h x f
  have hvy : ((mapCellHeap h x f).get h.cells.length).val = none := by rw [hcy]
  have hey : ((mapCellHeap h x f).get h.cells.length).exc = none := by rw [hcy]
  have hsy : ((mapCellHeap h x f).get h.cells.length).susp =
      some (.mapComp x f) := by rw [hcy]
  have hg1 : h1.get h.cells.length = ⟨some (Comp.mapComp x f), none, none⟩ := by
    have hl := fp_local (wf_mapCellHeap hw hx f) n x h.cells.length hx
    rw [hr] at hl; rw [hl, hcy]
  rw [fp_force_mapc_ok n hvy hey hsy hr, hfe, fp_finish_err, hg1]

theorem oop_mapcell_force_ok {h : Heap} (hw : WF h) {x : Nat} (f : Fn)
    (hx : x < h.cells.length) (n : Nat) {h1 : Heap} {v : JS} {tr1 : List Ev}
    (hr : LazyOOP.force n (mapCellHeap h x f) x = (h1, some (.ok v), tr1)) :
    ∀ w, (f v).2 = .ok w →
    LazyOOP.force (n + 1) (mapCellHeap h x f) h.cells.length =
      (h1.set h.cells.length ⟨none, some w, none⟩, some (.ok w),
        Ev.ran h.cells.length :: (tr1 ++ Ev.fapp :: ((f v).1.map Ev.user))) := by
  intro w hfw
  have hcy := mapcell_get_y h x f
  have hvy : LazyOOP.defined? ((mapCellHeap h x f).get h.cells.length).val =
      none := by rw [hcy]; rfl
  have hey : LazyOOP.defined? ((mapCellHeap h x f).get h.cells.length).exc =
      none := by rw [hcy]; rfl
  have hsy : ((mapCellHeap h x f).get h.cells.length).susp =
      some (.mapComp x f) := by rw [hcy]
  have hg1 : h1.get h.cells.length = ⟨some (Comp.mapComp x f), none, none⟩ := by
    have hl := oop_local (wf_mapCellHeap hw hx f) n x h.cells.length hx
    rw [hr] at hl; rw [hl, hcy]
  rw [oop_force_mapc_ok n hvy hey hsy hr, hfw,
    oop_finish_ok w _ (by rw [hg1]; rfl), hg1]

theorem oop_mapcell_force_err {h : Heap} (hw : WF h) {x : Nat} (f : Fn)
    (hx : x < h.cells.length) (n : Nat) {h1 : Heap} {e : JS} {tr1 : List Ev}
    (hie : e.isError = true)
    (hr : LazyOOP.force n (mapCellHeap h x f) x = (h1, some (.error e), tr1)) :
    LazyOOP.force (n + 1) (mapCellHeap h x f) h.cells.length =
      (h1.set h.cells.length ⟨none, none, some e⟩, some (.error e),
        Ev.ran h.cells.length :: tr1) := by
  have hcy := mapcell_get_y h x f
  have hvy : LazyOOP.defined? ((mapCellHeap h x f).get h.cells.length).val =
      none := by rw [hcy]; rfl
  have hey : LazyOOP.defined? ((mapCellHeap h x f).get h.cells.length).exc =
      none := by rw [hcy]; rfl
  have hsy : ((mapCellHeap h x f).get h.cells.length).susp =
      some (.mapComp x f) := by rw [hcy]
  have hg1 : h1.get h.cells.length = ⟨some (Comp.mapComp x f), none, none⟩ := by
    have hl := oop_local (wf_mapCellHeap hw hx f) n x h.cells.length hx
    rw [hr] at hl; rw [hl, hcy]
  rw [oop_force_mapc_err n hvy hey hsy hr, oop_finish_err_isErr _ hie, hg1]

theorem oop_mapcell_force_fok_err {h : Heap} (hw : WF h) {x : Nat} (f : Fn)
    (hx : x < h.cells.length) (n : Nat) {h1 : Heap} {v : JS} {tr1 : List Ev}
    (hr : LazyOOP.force n (mapCellHeap h x f) x = (h1, some (.ok v), tr1)) :
    ∀ e, (f v).2 = .error e → e.isError = true →
    LazyOOP.force (n + 1) (mapCellHeap h x f) h.cells.length =
      (h1.set h.cells.length ⟨none, none, some e⟩, some (.error e),
        Ev.ran h.cells.length :: (tr1 ++ Ev.fapp :: ((f v).1.map Ev.user))) := by
  intro e hfe hie
  have hcy := mapcell_get_y h x f
  have hvy : LazyOOP.defined? ((mapCellHeap h x f).get h.cells.length).val =
      none := by rw [hcy]; rfl
  have hey : LazyOOP.defined? ((mapCellHeap h x f).get h.cells.length).exc =
      none := by rw [hcy]; rfl
  have hsy : ((mapCellHeap h x f).get h.cells.length).susp =
      some (.mapComp x f) := by rw [hcy]
  have hg1 : h1.get h.cells.length = ⟨some (Comp.mapComp x f), none, none⟩ := by
    have hl := oop_local (wf_mapCellHeap hw hx f) n x h.cells.length hx
    rw [hr] at hl; rw [hl, hcy]
  rw [oop_force_mapc_ok n hvy hey hsy hr, hfe, oop_finish_err_isErr _ hie, hg1]

/-- **C7** (confirmed).  `map(f, x)` allocates one fresh `Pending` cell
holding the thunk `() => f(force(x))` and does nothing else: `f` is not
invoked, `x` is not forced, and `x`'s cell is not mutated (the original
heap cells are untouched).  When the new cell is later forced, it first
forces `x` and then applies `f` — in the trace, `x`'s run (`Ev.ran x` and
its events, `tr1`) strictly precedes the application of `f` (`Ev.fapp` and
`f`'s events).  If forcing `x` fails, `f` is never applied (no `Ev.fapp`
is appended) and the new cell re-raises `x`'s error identically (for the
OOP facade stated for `Error`-object errors, the only kind its `force`
ever stores). -/
theorem c7_map_lazy (h : Heap) (x : Nat) (f : Fn) (hw : WF h)
    (hx : x < h.cells.length) :
    LazyFP.map f h x = (mapCellHeap h x f, h.cells.length) ∧
    LazyOOP.map f h x = (mapCellHeap h x f, h.cells.length) ∧
    (mapCellHeap h x f).get h.cells.length =
      ⟨some (Comp.mapComp x f), none, none⟩ ∧
    (mapCellHeap h x f).get x = h.get x ∧
    LazyFP.is_val (mapCellHeap h x f) h.cells.length = false ∧
    (∀ n h1 v tr1 w,
      LazyFP.force n (mapCellHeap h x f) x = (h1, some (.ok v), tr1) →
      (f v).2 = .ok w →
      LazyFP.force (n + 1) (mapCellHeap h x f) h.cells.length =
        (h1.set h.cells.length ⟨none, some w, none⟩, some (.ok w),
          Ev.ran h.cells.length :: (tr1 ++ Ev.fapp :: ((f v).1.map Ev.user)))) ∧
    (∀ n h1 e tr1,
      LazyFP.force n (mapCellHeap h x f) x = (h1, some (.error e), tr1) →
      LazyFP.force (n + 1) (mapCellHeap h x f) h.cells.length =
        (h1.set h.cells.length ⟨none, none, some e⟩, some (.error e),
          Ev.ran h.cells.length :: tr1)) ∧
    (∀ n h1 v tr1 w,
      LazyOOP.force n (mapCellHeap h x f) x = (h1, some (.ok v), tr1) →
      (f v).2 = .ok w →
      LazyOOP.force (n + 1) (mapCellHeap h x f) h.cells.length =
        (h1.set h.cells.length ⟨none, some w, none⟩, some (.ok w),
          Ev.ran h.cells.length :: (tr1 ++ Ev.fapp :: ((f v).1.map Ev.user)))) ∧
    (∀ n h1 e tr1, e.isError = true →
      LazyOOP.force n (mapCellHeap h x f) x = (h1, some (.error e), tr1) →
      LazyOOP.force (n + 1) (mapCellHeap h x f) h.cells.length =
        (h1.set h.cells.length ⟨none, none, some e⟩, some (.error e),
          Ev.ran h.cells.length :: tr1)) := by
  refine ⟨rfl, rfl, mapcell_get_y h x f, mapcell_get_lt x f hx, ?_, ?_, ?_, ?_, ?_⟩
  · simp [LazyFP.is_val, mapcell_get_y h x f]
  · intro n h1 v tr1 w hr hfw
    exact fp_mapcell_force_ok hw f hx n hr w hfw
  · intro n h1 e tr1 hr
    exact fp_mapcell_force_err hw f hx n hr
  · intro n h1 v tr1 w hr hfw
    exact oop_mapcell_force_ok hw f hx n hr w hfw
  · intro n h1 e tr1 hie hr
    exact oop_mapcell_force_err hw f hx n hie hr

/-- Witness for C7 at the concrete FP cell wrapping `() => { log 5; 69 }`
mapped through `fEv = (v) => { log 7; v }`: `map` allocates the thunk
cell, and forcing it runs `x`'s computation first and applies `f` after,
as the trace `[ran 1, ran 0, user 5, fapp, user 7]` shows. -/
theorem c7_witness :
    LazyFP.map fEv hPendFP 0 = (mapCellHeap hPendFP 0 fEv, 1) ∧
    LazyFP.force 2 (mapCellHeap hPendFP 0 fEv) 1 =
      ((Heap.set (mapCellHeap hPendFP 0 fEv) 0
          ⟨none, some (JS.num 69), none⟩).set 1 ⟨none, some (JS.num 69), none⟩,
        some (.ok (JS.num 69)),
        [Ev.ran 1, Ev.ran 0, Ev.user 5, Ev.fapp, Ev.user 7]) := by
  have hc := c7_map_lazy hPendFP 0 fEv wf_hPendFP (by decide)
  refine ⟨hc.1, ?_⟩
  have hstep := hc.2.2.2.2.2.1 1
    (Heap.set (mapCellHeap hPendFP 0 fEv) 0 ⟨none, some (JS.num 69), none⟩)
    (JS.num 69) [Ev.ran 0, Ev.user 5] (JS.num 69) (by rfl) (by rfl)
  exact hstep

/-- **C6** (confirmed).  When `f` raises: if the receiver `x` is already
`Done`, `mapVal(f, x)` raises synchronously out of the call itself — the
returned heap is exactly the input heap, so no result cell was constructed
and the error was recorded into no cell.  If `x` is `Pending`, `mapVal`
returns a fresh thunk cell without raising and without applying `f` (empty
trace), and the `f`-originated error is raised only when the resulting
cell is forced (for the OOP facade the deferred conjunct is stated for
`Error`-object raises; a non-`Error` raise is wrapped by `errorFrom`
at force time, cf. C3). -/
theorem c6_mapval_raise_timing (h : Heap) (x : Nat) (f : Fn) :
    (∀ v evs e, (h.get x).val = some v → f v = (evs, .error e) →
      LazyFP.map_val f h x = (h, .error e, Ev.fapp :: evs.map Ev.user)) ∧
    (∀ v evs e, LazyOOP.defined? (h.get x).val = some v →
      f v = (evs, .error e) →
      LazyOOP.mapVal f h x = (h, .error e, Ev.fapp :: evs.map Ev.user)) ∧
    ((h.get x).val = none →
      LazyFP.map_val f h x = (mapCellHeap h x f, .ok h.cells.length, [])) ∧
    (LazyOOP.defined? (h.get x).val = none →
      LazyOOP.mapVal f h x = (mapCellHeap h x f, .ok h.cells.length, [])) ∧
    (WF h → x < h.cells.length → ∀ n h1 v tr1 e,
      LazyFP.force n (mapCellHeap h x f) x = (h1, some (.ok v), tr1) →
      (f v).2 = .error e →
      LazyFP.force (n + 1) (mapCellHeap h x f) h.cells.length =
        (h1.set h.cells.length ⟨none, none, some e⟩, some (.error e),
          Ev.ran h.cells.length :: (tr1 ++ Ev.fapp :: ((f v).1.map Ev.user)))) ∧
    (WF h → x < h.cells.length → ∀ n h1 v tr1 e,
      LazyOOP.force n (mapCellHeap h x f) x = (h1, some (.ok v), tr1) →
      (f v).2 = .error e → e.isError = true →
      LazyOOP.force (n + 1) (mapCellHeap h x f) h.cells.length =
        (h1.set h.cells.length ⟨none, none, some e⟩, some (.error e),
          Ev.ran h.cells.length :: (tr1 ++ Ev.fapp :: ((f v).1.map Ev.user)))) := by
  refine ⟨?_, ?_, ?_, ?_, ?_, ?_⟩
  · intro v evs e hv hfv
    simp only [LazyFP.map_val, hv, hfv]
  · intro v evs e hv hfv
    simp only [LazyOOP.mapVal, hv, hfv]
  · intro hv
    simp only [LazyFP.map_val, hv]
    rfl
  · intro hv
    simp only [LazyOOP.mapVal, hv]
    rfl
  · intro hw hx n h1 v tr1 e hr hfe
    exact fp_mapcell_force_fok_err hw f hx n hr e hfe
  · intro hw hx n h1 v tr1 e hr hfe hie
    exact oop_mapcell_force_fok_err hw f hx n hr e hfe hie

/-- Witness for C6: on the evaluated FP cell holding `69`, `mapVal` with
the raising `fRaise` raises `errBoom` synchronously and leaves the heap
exactly as it was; on the pending cell, forcing the deferred cell raises
`errBoom` only then, after `x`'s computation ran. -/
theorem c6_witness :
    LazyFP.map_val fRaise hDoneFP 0 =
      (hDoneFP, .error errBoom, [Ev.fapp, Ev.user 3]) ∧
    LazyFP.force 2 (mapCellHeap hPendFP 0 fRaise) 1 =
      ((Heap.set (mapCellHeap hPendFP 0 fRaise) 0
          ⟨none, some (JS.num 69), none⟩).set 1 ⟨none, none, some errBoom⟩,
        some (.error errBoom),
        [Ev.ran 1, Ev.ran 0, Ev.user 5, Ev.fapp, Ev.user 3]) := by
  constructor
  · exact (c6_mapval_raise_timing hDoneFP 0 fRaise).1 (JS.num 69) [3] errBoom
      rfl rfl
  · exact (c6_mapval_raise_timing hPendFP 0 fRaise).2.2.2.2.1 wf_hPendFP
      (by decide) 1
      (Heap.set (mapCellHeap hPendFP 0 fRaise) 0 ⟨none, some (JS.num 69), none⟩)
      (JS.num 69) [Ev.ran 0, Ev.user 5] errBoom (by rfl) (by rfl)

/-- **C10** (amended).  Forcing the derived cell `map f x` (a deferred
`mapVal` builds the identical thunk cell, cf. C5/C6) to a value also
forces and memoizes the source cell `x`: afterwards `x` holds its value
with the suspension discarded, and any later `force(x)` returns that value
with no observable work.  In the FP facade `x` is then also
`isEvaluated`; in the OOP facade both conclusions hold provided the source
value is not `undefined` (see `c10_counterexample`). -/
theorem c10_map_memoizes_source (h : Heap) (x : Nat) (f : Fn) (hw : WF h)
    (hx : x < h.cells.length)
    (hvx : (h.get x).val = none) (hex : (h.get x).exc = none) :
    (∀ n h' w tr,
      LazyFP.force (n + 1) (mapCellHeap h x f) h.cells.length =
        (h', some (.ok w), tr) →
      ∃ v, h'.get x = { h.get x with val := some v, susp := none } ∧
        LazyFP.is_val h' x = true ∧
        ∀ m, LazyFP.force (m + 1) h' x = (h', some (.ok v), [])) ∧
    (∀ n h' w tr,
      LazyOOP.force (n + 1) (mapCellHeap h x f) h.cells.length =
        (h', some (.ok w), tr) →
      ∃ v, h'.get x = { h.get x with val := some v, susp := none } ∧
        (v ≠ JS.undef →
          LazyOOP.isVal h' x = true ∧
          ∀ m, LazyOOP.force (m + 1) h' x = (h', some (.ok v), []))) := by
  have hcy := mapcell_get_y h x f
  have hwm := wf_mapCellHeap hw hx f
  have hxm : x < (mapCellHeap h x f).cells.length := by
    have := heap_len_push h (⟨some (Comp.mapComp x f), none, none⟩ : Cell)
    unfold mapCellHeap; omega
  have hvxm : ((mapCellHeap h x f).get x).val = none := by
    rw [mapcell_get_lt x f hx]; exact hvx
  have hexm : ((mapCellHeap h x f).get x).exc = none := by
    rw [mapcell_get_lt x f hx]; exact hex
  have hvy : ((mapCellHeap h x f).get h.cells.length).val = none := by rw [hcy]
  have hey : ((mapCellHeap h x f).get h.cells.length).exc = none := by rw [hcy]
  have hsy : ((mapCellHeap h x f).get h.cells.length).susp =
      some (.mapComp x f) := by rw [hcy]
  have hvy' : LazyOOP.defined? ((mapCellHeap h x f).get h.cells.length).val =
      none := by rw [hcy]; rfl
  have hey' : LazyOOP.defined? ((mapCellHeap h x f).get h.cells.length).exc =
      none := by rw [hcy]; rfl
  have hvxm' : LazyOOP.defined? ((mapCellHeap h x f).get x).val = none := by
    rw [mapcell_get_lt x f hx, hvx]; rfl
  have hexm' : LazyOOP.defined? ((mapCellHeap h x f).get x).exc = none := by
    rw [mapcell_get_lt x f hx, hex]; rfl
  constructor
  · intro n h' w tr hforce
    rcases hr : LazyFP.force n (mapCellHeap h x f) x with ⟨h1, r1, tr1⟩
    rcases r1 with _ | r1
    · rw [fp_force_mapc_none n hvy hey hsy hr] at hforce
      simp only [Prod.mk.injEq] at hforce
      exact absurd hforce.2.1 (by simp)
    · rcases r1 with e1 | v1
      · rw [fp_mapcell_force_err hw f hx n hr] at hforce
        simp only [Prod.mk.injEq, Option.some.injEq] at hforce
        exact absurd hforce.2.1 (by simp)
      · cases hfo : (f v1).2 with
        | error e2 =>
          rw [fp_mapcell_force_fok_err hw f hx n hr e2 hfo] at hforce
          simp only [Prod.mk.injEq, Option.some.injEq] at hforce
          exact absurd hforce.2.1 (by simp)
        | ok w2 =>
          rw [fp_mapcell_force_ok hw f hx n hr w2 hfo] at hforce
          simp only [Prod.mk.injEq, Option.some.injEq] at hforce
          obtain ⟨hh, hrr, htr⟩ := hforce
          subst hh
          have hps := (fp_poststate hwm n x h1 (.ok v1) tr1 hxm hvxm hexm hr).1
            v1 rfl
          rw [mapcell_get_lt x f hx] at hps
          have hgx : ((h1.set h.cells.length ⟨none, some w2, none⟩).get x) =
              h1.get x := heap_get_set_ne _ _ _ _ (Nat.ne_of_lt hx)
          refine ⟨v1, ?_, ?_, ?_⟩
          · rw [hgx, hps]
          · simp [LazyFP.is_val, hgx, hps]
          · intro m
            refine fp_force_val m ?_
            rw [hgx, hps]
  · intro n h' w tr hforce
    rcases hr : LazyOOP.force n (mapCellHeap h x f) x with ⟨h1, r1, tr1⟩
    rcases r1 with _ | r1
    · rw [oop_force_mapc_none n hvy' hey' hsy hr] at hforce
      simp only [Prod.mk.injEq] at hforce
      exact absurd hforce.2.1 (by simp)
    · rcases r1 with e1 | v1
      · have hie : e1.isError = true := by
          have hps := (oop_poststate hwm n x h1 (.error e1) tr1 hxm hvxm' hexm'
            hr).2 e1 rfl
          exact hps.1
        rw [oop_mapcell_force_err hw f hx n hie hr] at hforce
        simp only [Prod.mk.injEq, Option.some.injEq] at hforce
        exact absurd hforce.2.1 (by simp)
      · cases hfo : (f v1).2 with
        | error e2 =>
          by_cases hie : e2.isError = true
          · rw [oop_mapcell_force_fok_err hw f hx n hr e2 hfo hie] at hforce
            simp only [Prod.mk.injEq, Option.some.injEq] at hforce
            exact absurd hforce.2.1 (by simp)
          · have hvyh : ((mapCellHeap h x f).get h.cells.length).susp =
                some (.mapComp x f) := hsy
            rw [oop_force_mapc_ok n hvy' hey' hvyh hr, hfo,
              oop_finish_err_wrap _ (by simpa using hie)] at hforce
            simp only [Prod.mk.injEq, Option.some.injEq] at hforce
            exact absurd hforce.2.1 (by simp)
        | ok w2 =>
          rw [oop_mapcell_force_ok hw f hx n hr w2 hfo] at hforce
          simp only [Prod.mk.injEq, Option.some.injEq] at hforce
          obtain ⟨hh, hrr, htr⟩ := hforce
          subst hh
          have hps := (oop_poststate hwm n x h1 (.ok v1) tr1 hxm hvxm' hexm'
            hr).1 v1 rfl
          rw [mapcell_get_lt x f hx] at hps
          have hgx : ((h1.set h.cells.length ⟨none, some w2, none⟩).get x) =
              h1.get x := heap_get_set_ne _ _ _ _ (Nat.ne_of_lt hx)
          refine ⟨v1, ?_, ?_⟩
          · rw [hgx, hps]
          · intro hvu
            constructor
            · simp [LazyOOP.isVal, hgx, hps, defined_some_ne hvu]
            · intro m
              refine oop_force_val m ?_
              rw [hgx, hps]
              exact defined_some_ne hvu

/-- **C10 counterexample.**  OOP cell `x` wrapping `() => undefined`,
derived cell `map(() => 1, x)`: forcing the derived cell completes with
`1`, yet afterwards `isVal x` is `false` and a later `force(x)` raises a
`Lazy.Undefined` error instead of returning the memoized source value. -/
theorem c10_counterexample :
    (LazyOOP.force 3 (LazyOOP.map fOne hUndefOOP 0).1 1).2.1 =
      some (Except.ok (JS.num 1)) ∧
    LazyOOP.isVal (LazyOOP.force 3 (LazyOOP.map fOne hUndefOOP 0).1 1).1 0 =
      false ∧
    (LazyOOP.force 1 (LazyOOP.force 3 (LazyOOP.map fOne hUndefOOP 0).1 1).1
        0).2.1 =
      some (Except.error (JS.error 0 ErrClass.lazyUndefined undefMsg)) :=
  ⟨rfl, rfl, rfl⟩

/-- Witness for C10: after forcing the derived FP cell `map fEv x` over
the pending cell `x` wrapping `() => 69`, the source cell `x` is
evaluated. -/
theorem c10_witness :
    LazyFP.is_val
      ((Heap.set (mapCellHeap hPendFP 0 fEv) 0
          ⟨none, some (JS.num 69), none⟩).set 1 ⟨none, some (JS.num 69), none⟩)
      0 = true := by
  obtain ⟨v, hcell, hisval, hre⟩ :=
    (c10_map_memoizes_source hPendFP 0 fEv wf_hPendFP (by decide) rfl rfl).1
      1
      ((Heap.set (mapCellHeap hPendFP 0 fEv) 0
          ⟨none, some (JS.num 69), none⟩).set 1 ⟨none, some (JS.num 69), none⟩)
      (JS.num 69)
      [Ev.ran 1, Ev.ran 0, Ev.user 5, Ev.fapp, Ev.user 7]
      (by rfl)
  exact hisval

/-- **C4** (amended).  Through each facade's own reading of the fields:
every cell of the empty heap (trivially), every cell created by the
constructors, and every cell of a heap evolved by `force` is observably in
exactly one of the three variants; a cell observed `Done` or `Failed` is
never mutated by any later operation (the outcome is permanent); and a
completed `force` of a pending cell has already recorded the outcome and
discarded the suspension in the heap it returns, so a `force` occurring
during unwinding observes the final state, not `Pending`.  For the FP
facade this is unconditional; for the OOP facade the exactly-one invariant
additionally requires that no stored computation produces the value
`undefined` (`NoUndefSusp`) and that `fromVal` is not applied to
`undefined` — an OOP cell holding `undefined` is observably in *no*
variant and can change again after leaving `Pending`
(see `c4_counterexample`). -/
theorem c4_variant_invariants :
    ExactlyOneFP Heap.empty ∧
    (∀ h, ExactlyOneFP h → WF h → ∀ n i, ExactlyOneFP ((LazyFP.force n h i).1)) ∧
    (∀ h c, ExactlyOneFP h → ExactlyOneFP ((LazyFP.mk h c).1)) ∧
    (∀ h v, ExactlyOneFP h → ExactlyOneFP ((LazyFP.from_val h v).1)) ∧
    (∀ h f x, ExactlyOneFP h → ExactlyOneFP ((LazyFP.map_val f h x).1)) ∧
    (∀ h n j k, ((h.get k).val.isSome ∨ (h.get k).exc.isSome) →
      ((LazyFP.force n h j).1).get k = h.get k) ∧
    (∀ h, WF h → ∀ n i h' r tr, i < h.cells.length →
      (h.get i).val = none → (h.get i).exc = none →
      LazyFP.force n h i = (h', some r, tr) →
      (h'.get i).susp = none ∧
      (∀ v, r = .ok v → (h'.get i).val = some v) ∧
      (∀ e, r = .error e → (h'.get i).exc = some e)) ∧
    ExactlyOneOOP Heap.empty ∧
    (∀ h, ExactlyOneOOP h → WF h → NoUndefSusp h → ∀ n i,
      ExactlyOneOOP ((LazyOOP.force n h i).1)) ∧
    (∀ h c, ExactlyOneOOP h → ExactlyOneOOP ((LazyOOP.mk h c).1)) ∧
    (∀ h v, v ≠ JS.undef → ExactlyOneOOP h →
      ExactlyOneOOP ((LazyOOP.fromVal h v).1)) ∧
    (∀ h f x, (∀ v, NoUndefOut (f v).2) → ExactlyOneOOP h →
      ExactlyOneOOP ((LazyOOP.mapVal f h x).1)) ∧
    (∀ h n j k, ((LazyOOP.defined? (h.get k).val).isSome ∨
        (LazyOOP.defined? (h.get k).exc).isSome) →
      ((LazyOOP.force n h j).1).get k = h.get k) ∧
    (∀ h, WF h → ∀ n i h' r tr, i < h.cells.length →
      LazyOOP.defined? (h.get i).val = none →
      LazyOOP.defined? (h.get i).exc = none →
      LazyOOP.force n h i = (h', some r, tr) →
      (h'.get i).susp = none ∧
      (∀ v, r = .ok v → (h'.get i).val = some v) ∧
      (∀ e, r = .error e → (h'.get i).exc = some e)) := by
  refine ⟨?_, ?_, ?_, ?_, ?_, ?_, ?_, ?_, ?_, ?_, ?_, ?_, ?_, ?_⟩
  · intro i hi; simp [Heap.empty] at hi
  · intro h hx hw n i; exact exone_fp_force hw hx n i
  · intro h c hx; exact exone_fp_push hx (Or.inl ⟨by simp, rfl, rfl⟩)
  · intro h v hx; exact exone_fp_push hx (Or.inr (Or.inl ⟨rfl, by simp, rfl⟩))
  · intro h f x hx; exact exone_fp_mapval hx f x
  · intro h n j k hk; exact fp_memo n j k hk
  · intro h hw n i h' r tr hlen hv he hf
    obtain ⟨hok, herr⟩ := fp_poststate hw n i h' r tr hlen hv he hf
    refine ⟨?_, ?_, ?_⟩
    · rcases r with e | v
      · rw [herr e rfl]
      · rw [hok v rfl]
    · intro v hrv; rw [hok v hrv]
    · intro e hre; rw [herr e hre]
  · intro i hi; simp [Heap.empty] at hi
  · intro h hx hw hu n i; exact exone_oop_force hw hu hx n i
  · intro h c hx; exact exone_oop_push hx (Or.inl ⟨by simp, rfl, rfl⟩)
  · intro h v hvu hx
    refine exone_oop_push hx (Or.inr (Or.inl ⟨rfl, ?_, rfl⟩))
    rw [defined_some_ne hvu]; simp
  · intro h f x hf hx; exact exone_oop_mapval hx f x hf
  · intro h n j k hk; exact oop_memo n j k hk
  · intro h hw n i h' r tr hlen hv he hf
    obtain ⟨hok, herr⟩ := oop_poststate hw n i h' r tr hlen hv he hf
    refine ⟨?_, ?_, ?_⟩
    · rcases r with e | v
      · rw [(herr e rfl).2]
      · rw [hok v rfl]
    · intro v hrv; rw [hok v hrv]
    · intro e hre; rw [(herr e hre).2]

/-- **C4 counterexample.**  The OOP cell wrapping `() => undefined`:
before forcing it is `Pending`; the first `force` completes, after which
the cell is observably in *no* variant (`isVal`-, `isException`- and
`isSuspension`-style readings are all false); a second `force` then
records a `Failed` outcome — the cell changed again after having left
`Pending`, and there was an observation point with no variant at all. -/
theorem c4_counterexample :
    (hUndefOOP.get 0).susp.isSome = true ∧
    (hUndefOOP.get 0).val = none ∧ (hUndefOOP.get 0).exc = none ∧
    (LazyOOP.force 2 hUndefOOP 0).2.1 = some (Except.ok JS.undef) ∧
    (hUndef1.get 0).susp = none ∧
    LazyOOP.defined? (hUndef1.get 0).val = none ∧
    LazyOOP.defined? (hUndef1.get 0).exc = none ∧
    (hUndef2.get 0).exc = some (JS.error 0 ErrClass.lazyUndefined undefMsg) :=
  ⟨rfl, rfl, rfl, rfl, rfl, rfl, rfl, rfl⟩

/-- Witness for C4: the singleton heap with the pending FP cell wrapping
`() => 69` has every cell in exactly one variant, and still does after a
`force`. -/
theorem c4_witness :
    ExactlyOneFP hPendFP ∧ ExactlyOneFP ((LazyFP.force 2 hPendFP 0).1) := by
  have hx : ExactlyOneFP hPendFP :=
    c4_variant_invariants.2.2.1 Heap.empty cellComp
      (fun i hi => by simp [Heap.empty] at hi)
  exact ⟨hx, c4_variant_invariants.2.1 hPendFP hx wf_hPendFP 2 0⟩

/-- **C2** (amended).  Provided every wrapped computation and every
mapping function only raises `Error` objects and only produces defined
(non-`undefined`) values, and `fromValue` is applied to defined values
(`TameOp`), the functional facade and the object facade produce the
*identical* observable behavior on every operation sequence: the same
memoized values, the same raised error objects, the same `isVal` answers,
the same eager/lazy split in `mapVal`, and the same event traces.
Outside this tame fragment the facades genuinely diverge: on a non-`Error`
raise the OOP facade raises a fresh normalized `Error` while the FP facade
re-raises the original value (see `c2_counterexample`), and `undefined`
values are memoized by FP but invisible to OOP (cf. C1/C8). -/
theorem c2_facade_equivalence (ops : List Op)
    (hops : ∀ op ∈ ops, TameOp op) :
    runSeqOOP Heap.empty ops = runSeqFP Heap.empty ops :=
  tame_runseq_eq ops Heap.empty tame_empty hops

/-- **C2 counterexample.**  Wrapping `() => { throw "boom" }` and forcing
it: the FP facade reports the raised raw string, the OOP facade reports a
normalized `Error` object — different observable behavior. -/
theorem c2_counterexample :
    (runSeqFP Heap.empty opsBoom).2 ≠ (runSeqOOP Heap.empty opsBoom).2 := by
  decide

/-- Witness for C2 at the tame sequence `opsTame` (wrap `() => 69`, force
twice, ask `isVal`): both facades produce identical observations. -/
theorem c2_witness :
    runSeqOOP Heap.empty opsTame = runSeqFP Heap.empty opsTame := by
  refine c2_facade_equivalence opsTame ?_
  intro op hop
  simp only [opsTame, List.mem_cons, List.not_mem_nil, or_false] at hop
  rcases hop with rfl | rfl | rfl | rfl
  · exact fun hc => JS.noConfusion hc
  · exact trivial
  · exact trivial
  · exact trivial
